import Mathlib

/-!
Verification of the tag-function library (`tags.ts`): the line model,
the chaining combinator, the transform library (identity, outdent, wrap)
and the numbering subsystem, shallowly embedded over `List Char` lines.

Naming: the source spells compound names with the halfwidth `ｰ` character
(e.g. `textｰlines`); Lean identifiers cannot contain it, so `_` is used
instead (`text_lines`).  The source field `prefix` is rendered `pfx`.
-/

namespace Tags

/-! ## Line model (`textｰlines` and its helpers) -/

/-- Model of the JavaScript whitespace class `\s`, restricted to the ASCII
    whitespace characters that can occur in this library's inputs. -/
def is_ws (c : Char) : Bool :=
  c = ' ' || c = '\t' || c = '\n' || c = '\r' || c = '\x0b' || c = '\x0c'

/-- `line.replace(/\s*$/, "")`: strip all trailing whitespace. -/
def rstrip (l : List Char) : List Char :=
  (l.reverse.dropWhile is_ws).reverse

/-- Collapse every maximal whitespace run into a single space (`inws`
    records whether the previous character was inside a run whose single
    space has already been emitted).  Applied after the leading-whitespace
    run has been peeled off, this models the global replacement
    `(\S)\s+` → `$1 ` of the source (every remaining run is preceded by a
    non-whitespace character). -/
def collapse_runs : Bool → List Char → List Char
  | _, [] => []
  | inws, c :: cs =>
    if is_ws c then
      if inws then collapse_runs true cs else ' ' :: collapse_runs true cs
    else c :: collapse_runs false cs

/-- `line.replace(/(\S)\s+/g, "$1 ")`: fold internal whitespace runs to one
    space, preserving the leading whitespace verbatim. -/
def fold_spaces (l : List Char) : List Char :=
  l.takeWhile is_ws ++ collapse_runs false (l.dropWhile is_ws)

/-- `text.split("\n")` on character lists. -/
def split_nl : List Char → List (List Char)
  | [] => [[]]
  | c :: cs =>
    if c = '\n' then [] :: split_nl cs
    else
      match split_nl cs with
      | t :: ts => (c :: t) :: ts
      | [] => [[c]]

/-- `join("\n")` on character lists. -/
def join_nl : List (List Char) → List Char
  | [] => []
  | [l] => l
  | l :: l' :: ls => l ++ '\n' :: join_nl (l' :: ls)

/-- `s.trim()`: strip leading and trailing whitespace. -/
def js_trim (l : List Char) : List Char :=
  (rstrip l).dropWhile is_ws

/-- The reduction step of `textｰlines`: a line is kept when it is non-blank
    (truthy) or when the previous line of the *source* array trims to a
    non-empty string (`line || (index > 0 && source[index - 1]?.trim())`).
    `prev` is `none` exactly when `index = 0`. -/
def keep_line (prev : Option (List Char)) (l : List Char) : Bool :=
  !l.isEmpty ||
    (match prev with
     | some p => !(js_trim p).isEmpty
     | none => false)

def drop_blanks : Option (List Char) → List (List Char) → List (List Char)
  | _, [] => []
  | prev, l :: ls =>
    if keep_line prev l then l :: drop_blanks (some l) ls
    else drop_blanks (some l) ls

/-- The per-line normalization of `textｰlines` before blank-line removal:
    split on newlines, trim each line at the end, fold whitespace runs. -/
def normalized_lines (text : List Char) : List (List Char) :=
  ((split_nl text).map rstrip).map fold_spaces

/-- `textｰlines` on character lists: split text into lines, removing
    trailing whitespace and double blank lines. -/
def text_lines_c (text : List Char) : List (List Char) :=
  drop_blanks none (normalized_lines text)

/-- `textｰlines` on strings. -/
def text_lines (s : String) : List String :=
  (text_lines_c s.data).map String.mk

/-! ## Templates and the `identity` tag -/

/-- A literal template: string segments plus interpolated values (the
    `raw` companion array is used only by the `raw` tag, which is outside
    the claims, and is omitted).  Printable values are modelled by their
    `toString()` rendering. -/
structure Template where
  strings : List String
  values : List String
deriving DecidableEq, Repr

/-- A plain tag function. -/
def tag_function : Type := Template → String

/-- `${undefined}` interpolates as this string: reading `values[i]` past
    the end of the array yields `undefined` in JavaScript. -/
def js_undefined : String := "undefined"

/-- The body of `identity`'s reduce: `text + s + values[i]` with `i`
    running over the indices of `strings`. -/
def identity_from (values : List String) : Nat → List String → String
  | _, [] => ""
  | i, s :: ss => s ++ values.getD i js_undefined ++ identity_from values (i + 1) ss

/-- The `identity` tag: push one empty value, then zip strings and values
    together (`strings.reduce((text, s, i) => text + s + values[i], "")`). -/
def identity_tag : tag_function := fun t =>
  identity_from (t.values ++ [""]) 0 t.strings

/-- Wrapping a plain string as the single-value template the chainable
    string case uses: `` tag`${s}` `` passes segments `["", ""]` and the
    one value `s`. -/
def template_of_string (s : String) : Template :=
  ⟨["", ""], [s]⟩

/-! ## Indentation analysis and `outdent` -/

/-- `line.match(/ */)[0].length`: the number of leading space characters
    (spaces only, unlike `indentation` below which counts `\s`). -/
def leading_spaces (l : List Char) : Nat :=
  (l.takeWhile (fun c => c = ' ')).length

/-- `minｰindentation`: minimum leading-space count over lines with
    non-blank content.  `none` models the `Infinity` sentinel produced by
    the reduce when no non-blank line exists. -/
def min_indentation (lines : List (List Char)) : Option Nat :=
  ((lines.filter (fun l => !(js_trim l).isEmpty)).map leading_spaces).min?

/-- `line.slice(k)` for the (possibly `Infinity`) indentation amount:
    `slice(Infinity)` yields the empty string. -/
def drop_indentation (k : Option Nat) (l : List Char) : List Char :=
  match k with
  | none => []
  | some k => l.drop k

/-- The `outdent` tag body: normalize lines, compute the minimum
    indentation, remove it from every line, join with newlines. -/
def outdent_tag : tag_function := fun t =>
  let lines := text_lines_c (identity_tag t).data
  let indentation := min_indentation lines
  String.mk (join_nl (lines.map (drop_indentation indentation)))

/-- `outdent` invoked on a plain string (the chainable string call path:
    `` tag`${s}` ``). -/
def outdent_string (s : String) : String :=
  outdent_tag (template_of_string s)

/-! ## `wrap` and its line-splitting routine -/

/-- `indentation(line)`: `/^\s*/.exec(line)[0].length` — the length of the
    leading whitespace run (any whitespace, not just spaces). -/
def indentation_ws (l : List Char) : Nat :=
  (l.takeWhile is_ws).length

/-- The source's `lineｰwithｰindent` record. -/
structure line_with_indent where
  indent : Nat
  line : List Char
deriving DecidableEq, Repr

/-- JavaScript word character (`\w`). -/
def word_char (c : Char) : Bool :=
  ('a' ≤ c && c ≤ 'z') || ('A' ≤ c && c ≤ 'Z') || ('0' ≤ c && c ≤ '9') || c = '_'

/-- `line.replace(/\b\s+/g, " ")`: collapse every whitespace run that is
    preceded by a word character into a single space (a run not preceded
    by a word character — e.g. leading whitespace — is left verbatim,
    since `\b` cannot match between two non-word characters or before a
    whitespace character at the start of the string). -/
def fold_ws_after_word : Bool → List Char → List Char
  | _, [] => []
  | skipping, c :: cs =>
    if skipping && is_ws c then fold_ws_after_word true cs
    else if word_char c && (match cs with | d :: _ => is_ws d | [] => false) then
      c :: ' ' :: fold_ws_after_word true cs
    else c :: fold_ws_after_word false cs

/-- `line.replace(/\s$/, "")`: remove one trailing whitespace character,
    when present. -/
def remove_one_trailing_ws (l : List Char) : List Char :=
  match l.reverse with
  | c :: rest => if is_ws c then rest.reverse else l
  | [] => l

/-- `line.replace(/^\s*/, " ")`: the (possibly empty) leading whitespace
    run is replaced by a single space. -/
def strip_leading_ws_to_space (l : List Char) : List Char :=
  ' ' :: l.dropWhile is_ws

/-- `lines[lines.length - 1].line += …` — mutate the last accumulated
    record.  The empty case cannot arise (equal indentations imply a
    previous line exists); it is modelled as a no-op. -/
def modify_last (f : line_with_indent → line_with_indent) :
    List line_with_indent → List line_with_indent
  | [] => []
  | [a] => [f a]
  | a :: a' :: rest => a :: modify_last f (a' :: rest)

/-- The reduce of `wrap` that joins consecutive lines of identical
    indentation into logical lines.  `current` carries the running
    `currentｰindentation` value (`-1` initially and after a blank line);
    each step sets `previous := current` and recomputes `current` from
    the line being processed. -/
def wrap_join (current : Int) (acc : List line_with_indent) :
    List (List Char) → List line_with_indent
  | [] => acc
  | line :: rest =>
    let previous := current
    let curr : Int := indentation_ws line
    if (line.length : Int) ≤ curr then
      -- blank line: reset the indentation level, append an empty record
      wrap_join (-1) (acc ++ [⟨0, []⟩]) rest
    else if previous ≠ curr then
      wrap_join curr (acc ++ [⟨curr.toNat, line⟩]) rest
    else
      wrap_join curr
        (modify_last (fun lw => ⟨lw.indent, lw.line ++ strip_leading_ws_to_space line⟩) acc)
        rest

/-- The logical lines `wrap(n)` builds before splitting: normalized lines,
    word-boundary whitespace folding, one-character trailing trim, then
    the indentation-joining reduce started at `[-1, -1]`. -/
def wrap_logical_lines (text : List Char) : List line_with_indent :=
  wrap_join (-1) []
    (((text_lines_c text).map (fold_ws_after_word false)).map remove_one_trailing_ws)

/-- `line.lastIndexOf(" ", n)`: greatest space position `≤ n`, `-1` when
    there is none. -/
def last_index_of_space (l : List Char) (n : Nat) : Int :=
  match ((List.range l.length).filter
      (fun i => i ≤ n && l.get? i == some ' ')).max? with
  | some i => i
  | none => -1

/-- `line.indexOf(" ", n)`: least space position `≥ n`, `-1` when there is
    none. -/
def index_of_space_from (l : List Char) (n : Nat) : Int :=
  match ((List.range l.length).filter
      (fun i => n ≤ i && l.get? i == some ' ')).min? with
  | some i => i
  | none => -1

/-- One unfolding of the recursive `split` routine: either the final
    result for this line, or an emitted fragment together with the state
    of the recursive call. -/
inductive split_result where
  | done (lines : List (List Char))
  | piece (out : List Char) (next : line_with_indent)
deriving DecidableEq, Repr

/-- One step of `split(n)`: return the line whole when it is short enough
    or unsplittable, otherwise emit `line.substr(0, i)` and recurse on
    the re-indented remainder. -/
def split_step (n : Nat) (lw : line_with_indent) : split_result :=
  if lw.line.length ≤ n then .done [lw.line]
  else
    let i₀ := last_index_of_space lw.line n
    let i := if i₀ < 0 ∨ i₀ < (lw.indent : Int) then index_of_space_from lw.line n else i₀
    if i < 0 then .done [lw.line]
    else
      .piece (lw.line.take i.toNat)
        ⟨lw.indent, List.replicate lw.indent ' ' ++ lw.line.drop (i.toNat + 1)⟩

/-- `split(n)` run with explicit fuel: the source recursion is not
    structurally decreasing (and indeed need not terminate), so the
    embedding counts recursive steps; `none` means the fuel ran out. -/
def split_fuel : Nat → Nat → line_with_indent → Option (List (List Char))
  | 0, _, _ => none
  | fuel + 1, n, lw =>
    match split_step n lw with
    | .done out => some out
    | .piece p next => (split_fuel fuel n next).map (p :: ·)

/-- The body of `wrap(n)` (with fuel for the splitting recursion):
    build logical lines, split each, flatten and join. -/
def wrap_tag_fuel (fuel n : Nat) (t : Template) : Option String :=
  ((wrap_logical_lines (identity_tag t).data).mapM
      (fun lw => split_fuel fuel n lw)).map
    (fun pieces => String.mk (join_nl pieces.flatten))

/-- `wrap(n)` invoked on a plain string. -/
def wrap_string_fuel (fuel n : Nat) (s : String) : Option String :=
  wrap_tag_fuel fuel n (template_of_string s)

/-! ## The chaining combinator (`makeｰchainable`)

In JavaScript every function value can be invoked on any argument; the
functions reachable in this library are the plain tag functions, the
dispatchers produced by `makeｰchainable`, and the `composite` closures
the dispatcher's function case creates.  `Fn` defunctionalizes exactly
these three shapes, and `call` gives each one the source's behaviour on
each argument shape. -/

/-- The function values of the library. -/
inductive Fn where
  /-- a bare tag function: accepts only a literal template -/
  | plain (tag : Template → String) (name : String)
  /-- a dispatcher returned by `makeｰchainable(tag)` -/
  | chainable (tag : Template → String) (name : String)
  /-- the `composite` closure created by the dispatcher's function case
      (note: returned as-is, NOT passed through `makeｰchainable`) -/
  | composite (tag : Template → String) (inner : Fn) (name : String)

/-- The `name` property of a function value. -/
def Fn.fname : Fn → String
  | .plain _ n => n
  | .chainable _ n => n
  | .composite _ _ n => n

/-- Model of `Function.prototype.toString`, used when a function value is
    interpolated into a template literal (the exact text JS would produce
    is the source code; only the fact that it is a string matters here). -/
def Fn.source_text (f : Fn) : String :=
  "function " ++ f.fname ++ "() { [source code] }"

/-- An argument / return value in the dynamic world: a string, a literal
    template (segments and values bundled), or a function. -/
inductive Val where
  | str (s : String)
  | tmpl (t : Template)
  | fn (f : Fn)

/-- JS string coercion of a value interpolated into a template literal. -/
def Val.as_string : Val → String
  | .str s => s
  | .fn f => f.source_text
  | .tmpl t => String.intercalate "," t.strings

/-- `makeｰchainable(tag)`: record the tag's name, refusing nullish names
    (the misspelling `anoymousｰtag` is the source's), and return the
    dispatcher. -/
def make_chainable (tag : Template → String) (name : String) : Fn :=
  .chainable tag (if name = "" then "anoymousｰtag" else name)

/-- Calling a function value on an argument.  `none` models a runtime
    `TypeError` (a bare tag function applied to a non-template treats a
    string or function as its `templateｰstrings` array and crashes on the
    array methods).  The `composite` closure always forwards its argument
    to `inner` and wraps the coerced result:
    `` tag`${inner(s, ...v)}` ``. -/
def call : Fn → Val → Option Val
  | .plain tag _, .tmpl t => some (.str (tag t))
  | .plain _ _, _ => none
  | .chainable tag _, .tmpl t => some (.str (tag t))
  | .chainable tag _, .str s => some (.str (tag (template_of_string s)))
  | .chainable tag name, .fn g =>
    some (.fn (.composite tag g (name ++ "(" ++ g.fname ++ ")")))
  | .composite tag inner _, arg =>
    (call inner arg).map fun v => .str (tag (template_of_string v.as_string))

/-- The `fold` tag body: join all normalized lines with no separator. -/
def fold_tag : tag_function := fun t =>
  String.join ((text_lines_c (identity_tag t).data).map String.mk)

/-- The `flush` tag body: trim every line, join with newlines. -/
def flush_tag : tag_function := fun t =>
  String.mk (join_nl ((text_lines_c (identity_tag t).data).map js_trim))

/-- The uppercasing transform of the spec's chaining scenario ("inner
    uppercases"). -/
def upper_tag : tag_function := fun t =>
  String.mk ((identity_tag t).data.map Char.toUpper)

/-- The bracketing transform of the spec's chaining scenario ("outer adds
    brackets"). -/
def bracket_tag : tag_function := fun t => "[" ++ identity_tag t ++ "]"

/-! ## Numeral schemes -/

/-- The recursion of `alphabetize`, with explicit fuel so that the
    definition is structurally recursive (and hence evaluable inside
    proofs).  The source recursion `n ↦ floor((n-1)/26)` strictly
    decreases `n` while `n ≥ 1`, so `n.toNat + 1` steps of fuel (supplied
    by `alphabetize` below) always reproduce the full recursion. -/
def alphabetize_fuel (uppercase : Bool) : Nat → Int → String → String
  | 0, _, s => s
  | fuel + 1, n, s =>
    if n < 1 then s
    else
      alphabetize_fuel uppercase fuel ((n - 1) / 26)
        (String.singleton
          (Char.ofNat (((n - 1) % 26).toNat +
            (if uppercase then 'A' else 'a').toNat)) ++ s)

/-- `alphabetize({uppercase})`: bijective base-26 rendering, built tail
    recursively; `n < 1` returns the accumulator unchanged. -/
def alphabetize (uppercase : Bool) (n : Int) (s : String) : String :=
  alphabetize_fuel uppercase (n.toNat + 1) n s

/-- The Roman literal table (latin letters, optionally lowercased). -/
def roman_literals (uppercase : Bool) : List (String × Int) :=
  ([("M", 1000), ("CM", 900), ("D", 500), ("CD", 400), ("C", 100), ("XC", 90),
    ("L", 50), ("XL", 40), ("X", 10), ("IX", 9), ("V", 5), ("IV", 4),
    ("I", 1)] : List (String × Int)).map
    (fun p => (if uppercase then p.1 else String.mk (p.1.data.map Char.toLower), p.2))

/-- The recursion of `romanize`, with explicit fuel so that the definition
    is structurally recursive.  One step handles a negative sign and each
    further step subtracts a literal value `≥ 1`, so `n.natAbs + 2` steps
    (supplied by `romanize` below) always reproduce the full recursion. -/
def romanize_fuel (uppercase : Bool) : Nat → Int → String → String
  | 0, _, s => s
  | fuel + 1, n, s =>
    if n < 0 then "-" ++ romanize_fuel uppercase fuel (-n) s
    else
      match (roman_literals uppercase).find? (fun p => decide (p.2 ≤ n)) with
      | some kv => romanize_fuel uppercase fuel (n - kv.2) (s ++ kv.1)
      | none => s

/-- `romanize({uppercase})`: prepend `-` for negatives, otherwise greedily
    subtract the first literal value not exceeding `n`. -/
def romanize (uppercase : Bool) (n : Int) (s : String) : String :=
  romanize_fuel uppercase (n.natAbs + 2) n s

/-- `arabize`: `` `${n}` `` on an integer. -/
def arabize (n : Int) : String := toString n

/-- The keys of the numeral-scheme registry. -/
inductive scheme_key where
  | alpha | Alpha | roman | Roman | digit
deriving DecidableEq, Repr

/-- The `numberingｰschemes` registry (each scheme applied with its default
    accumulator `s = ""`). -/
def numbering_schemes : scheme_key → Int → String
  | .alpha => fun n => alphabetize false n ""
  | .Alpha => fun n => alphabetize true n ""
  | .roman => fun n => romanize false n ""
  | .Roman => fun n => romanize true n ""
  | .digit => arabize

/-! ## Padding-width computation -/

/-- The Roman numeral-length breakpoints of `maxｰpaddingｰwidth`. -/
def roman_breakpoints : List Int :=
  [1, 2, 3, 8, 18, 28, 38, 88, 188, 288, 388, 888, 1888, 2888, 3888]

/-- `Math.ceil(Math.log(max) / Math.log(base))`, modelled with exact real
    logarithms: for `base ≥ 2` and `max ≥ 1` this is the least `k` with
    `base ^ k ≥ max` (searching `k ≤ max` always suffices).  (`max = 0`
    gives `-Infinity` in JS; it is modelled as `0`, which is observable
    only on an empty line list, where no line gets padded at all.) -/
def js_ceil_log (base max : Nat) : Int :=
  (((List.range (max + 1)).find? (fun k => decide (max ≤ base ^ k))).getD 0 : Nat)

/-- `Array.prototype.findIndex`: index of the first element satisfying
    `p`, `-1` when there is none. -/
def find_index (p : α → Bool) (l : List α) : Int :=
  match l.findIdx? p with
  | some i => i
  | none => -1

/-- `maxｰpaddingｰwidth(from, length, scheme, signed)`: reserve one column
    for a sign when needed, then measure the larger of `|from|` and
    `|length|` against the scheme's base (the scheme key is lowercased, so
    `Alpha`/`Roman` share `alpha`/`roman`'s entry). -/
def max_padding_width (nfrom : Int) (len : Nat) (scheme : scheme_key)
    (signed : Bool) : Int :=
  let sign : Int := if nfrom < 0 || signed then 1 else 0
  let max : Nat := Nat.max nfrom.natAbs len
  match scheme with
  | .alpha | .Alpha => sign + js_ceil_log 26 max
  | .digit => sign + js_ceil_log 10 max
  | .roman | .Roman =>
    sign + find_index (fun e => decide ((max : Int) < e)) roman_breakpoints

/-! ## The counter and the `numbering` tag -/

/-- `numberingｰoptions`: every field optional (the source field `prefix`
    is rendered `pfx`; `padｰwith`/`padｰzeroｰwith` are modelled by their
    string rendering `` `${…}` ``). -/
structure numbering_options where
  number_from : Option Int := none
  pfx : Option String := none
  suffix : Option String := none
  pad_width : Option Int := none
  pad_with : Option String := none
  pad_zero_with : Option String := none
  numbering_scheme : Option scheme_key := none
  sign_all : Option Bool := none
deriving DecidableEq, Repr

/-- The options once the `counter` constructor has applied its `??=`
    defaults. -/
structure resolved_options where
  number_from : Int
  pfx : String
  suffix : String
  pad_width : Int
  pad_with : String
  pad_zero_with : String
  scheme : scheme_key
  sign_all : Bool
deriving DecidableEq, Repr

/-- The defaulting performed by the `counter` constructor. -/
def counter_resolve (o : numbering_options) : resolved_options where
  number_from := o.number_from.getD 0
  pfx := o.pfx.getD ""
  suffix := o.suffix.getD ""
  pad_width := o.pad_width.getD 0
  pad_with := o.pad_with.getD " "
  pad_zero_with := o.pad_zero_with.getD (o.pad_with.getD " ")
  scheme := o.numbering_scheme.getD .digit
  sign_all := o.sign_all.getD false

/-- `isNaN(parseInt(s))`: `parseInt` skips leading whitespace and an
    optional sign; it yields `NaN` exactly when no decimal digit follows
    (hexadecimal prefixes never arise here). -/
def parse_int_is_nan (s : String) : Bool :=
  let cs := s.data.dropWhile is_ws
  let cs := match cs with
    | c :: rest => if c = '+' || c = '-' then rest else c :: rest
    | [] => []
  match cs with
  | c :: _ => !c.isDigit
  | [] => true

/-- `String.prototype.padStart(target, fill)`: left-pad to `target`
    characters by cycling `fill`; no-op when the string is already long
    enough or the fill is empty. -/
def pad_start (s : List Char) (target : Int) (fill : List Char) : List Char :=
  if fill = [] then s
  else if target ≤ (s.length : Int) then s
  else
    let k := (target - s.length).toNat
    ((List.replicate k fill).flatten.take k) ++ s

/-- The `padder` built by the `counter` constructor, applied to a value
    `n` (`stringｰpadding` records `isNaN(parseInt(padｰwith))`). -/
def counter_padder (r : resolved_options) (string_padding : Bool) (n : Int) :
    String :=
  let sign : String :=
    if r.sign_all then (["-", "±", "+"].getD (n.sign + 1).toNat "")
    else if n < 0 then "-" else ""
  let n_as_string := numbering_schemes r.scheme n.natAbs
  let padding := if n ≠ 0 then r.pad_with else r.pad_zero_with
  if string_padding then
    String.mk (pad_start (sign ++ n_as_string).data r.pad_width padding.data)
  else
    let width := r.pad_width - (if n < 0 ∧ !r.sign_all then 1 else 0)
    sign ++ String.mk (pad_start n_as_string.data width padding.data)

/-- The `pad` getter: `prefix + padder(value) + suffix`. -/
def counter_pad (r : resolved_options) (string_padding : Bool) (n : Int) :
    String :=
  r.pfx ++ counter_padder r string_padding n ++ r.suffix

/-- The defaulting the `numbering` tag performs before constructing the
    counter: `numberｰfrom ??= 0`, `suffix ??= ". "`, `padｰwith ??= " "`,
    and an UNCONDITIONAL overwrite of `padｰwidth` with the computed
    maximum padding width (`options.padｰwidth = maxｰpaddingｰwidth(…)`). -/
def numbering_resolve (o : numbering_options) (line_count : Nat) :
    numbering_options :=
  let nfrom := o.number_from.getD 0
  { o with
    number_from := some nfrom
    suffix := some (o.suffix.getD ". ")
    pad_with := some (o.pad_with.getD " ")
    pad_width := some (max_padding_width nfrom line_count
      (o.numbering_scheme.getD .digit) (o.sign_all.getD false)) }

/-- `lines.map(line => index.next.pad + line)`: the counter is incremented
    before each rendering, starting from `numberｰfrom`. -/
def number_map (r : resolved_options) (string_padding : Bool) (v : Int) :
    List (List Char) → List (List Char)
  | [] => []
  | l :: ls =>
    ((counter_pad r string_padding (v + 1)).data ++ l) ::
      number_map r string_padding (v + 1) ls

/-- The lines produced by `numbering(options)` on a text (before the final
    join). -/
def numbering_lines (o : numbering_options) (text : String) : List String :=
  let lines := text_lines_c text.data
  let r := counter_resolve (numbering_resolve o lines.length)
  let string_padding := parse_int_is_nan r.pad_with
  (number_map r string_padding r.number_from lines).map String.mk

/-- `numbering(options)` applied to a text: numbered lines joined with
    newlines. -/
def numbering_run (o : numbering_options) (text : String) : String :=
  String.intercalate "\n" (numbering_lines o text)

/-! ## Spec-side definitions (stated from the specification's words, for
comparison with the source-derived definitions above) -/

/-- Rendering of a template as the plain interleaving
    `segment₀ value₀ segment₁ value₁ …`, consuming segments and an
    explicit value list in parallel. -/
def concat_interleave : List String → List String → String
  | [], _ => ""
  | s :: ss, [] => s ++ concat_interleave ss []
  | s :: ss, v :: vs => s ++ v ++ concat_interleave ss vs

/-- The integers `a, a+1, …, a+k-1`. -/
def int_range (a : Int) (k : Nat) : List Int :=
  (List.range k).map (fun i : Nat => a + (i : Int))

/-- The options of the C8 scenario:
    `numbering({numberｰfrom: -29, numberingｰscheme: "roman"})`. -/
def C8_options : numbering_options :=
  { number_from := some (-29), numbering_scheme := some .roman }

/-- The resolved counter options of the C8 scenario on a 27-line input. -/
def C8_resolved : resolved_options :=
  counter_resolve (numbering_resolve C8_options 27)

/-- A concrete 27-line sample input. -/
def C8_sample : String :=
  String.intercalate "\n" (List.replicate 27 "x")

end Tags

namespace Tags

/-! # Helper lemmas -/

/-- `identity`'s indexed reduce, re-expressed as a parallel walk over the
    segments and the (sufficiently padded) value list. -/
theorem identity_from_eq (values : List String) :
    ∀ (ss : List String) (i : Nat),
      identity_from values i ss =
        concat_interleave ss
          (values.drop i ++
            List.replicate (ss.length - (values.length - i)) js_undefined) := by
  intro ss
  induction ss with
  | nil => intro i; simp [identity_from, concat_interleave]
  | cons s ss ih =>
    intro i
    rw [identity_from, ih (i + 1)]
    by_cases h : i < values.length
    · rw [List.drop_eq_getElem_cons h, List.getD_eq_getElem _ _ h]
      have harith : ss.length + 1 - (values.length - i) =
          ss.length - (values.length - (i + 1)) := by omega
      simp [concat_interleave, harith]
    · have hle : values.length ≤ i := by omega
      rw [List.drop_eq_nil_of_le hle, List.drop_eq_nil_of_le (by omega),
        List.getD_eq_default _ _ hle]
      have h0 : values.length - i = 0 := by omega
      have h1 : values.length - (i + 1) = 0 := by omega
      simp [h0, h1, concat_interleave, List.replicate_succ]

theorem js_trim_nil : js_trim [] = [] := rfl

theorem drop_blanks_nil (prev : Option (List Char)) :
    drop_blanks prev [] = [] := rfl

theorem drop_blanks_cons (prev : Option (List Char)) (l : List Char)
    (ls : List (List Char)) :
    drop_blanks prev (l :: ls) =
      if keep_line prev l then l :: drop_blanks (some l) ls
      else drop_blanks (some l) ls := rfl

theorem keep_line_none (l : List Char) : keep_line none l = !l.isEmpty := by
  simp [keep_line]

theorem keep_line_some (p l : List Char) :
    keep_line (some p) l = (!l.isEmpty || !(js_trim p).isEmpty) := rfl

/-- When the previous source line is absent or trims to nothing, the first
    kept line cannot be blank. -/
theorem drop_blanks_head_ne_nil :
    ∀ (ls : List (List Char)) (prev : Option (List Char)),
      prev.elim True (fun p => js_trim p = []) →
      (drop_blanks prev ls).head? ≠ some [] := by
  intro ls
  induction ls with
  | nil => intro prev _; simp [drop_blanks_nil]
  | cons l ls ih =>
    intro prev hp
    rw [drop_blanks_cons]
    have hcond : keep_line prev l = !l.isEmpty := by
      cases prev with
      | none => exact keep_line_none l
      | some p =>
        simp only [Option.elim] at hp
        simp [keep_line_some, hp]
    rw [hcond]
    by_cases hl : l = []
    · subst hl
      rw [if_neg (by simp)]
      exact ih (some []) (by simp only [Option.elim]; exact js_trim_nil)
    · rw [if_pos (by simpa using hl)]
      simp only [List.head?_cons]
      intro h
      exact hl (by injection h)

/-- The kept lines never contain two adjacent blank lines. -/
theorem drop_blanks_chain :
    ∀ (ls : List (List Char)) (prev : Option (List Char)),
      List.Chain' (fun a b => ¬(a = [] ∧ b = [])) (drop_blanks prev ls) := by
  intro ls
  induction ls with
  | nil => intro prev; simp [drop_blanks_nil]
  | cons l ls ih =>
    intro prev
    rw [drop_blanks_cons]
    by_cases hk : keep_line prev l = true
    · rw [if_pos hk, List.chain'_cons']
      refine ⟨fun b hb => ?_, ih (some l)⟩
      by_cases hl : l = []
      · intro hc
        exact drop_blanks_head_ne_nil ls (some l)
          (by simp only [Option.elim]; rw [hl, js_trim_nil])
          (by rw [← hc.2]; exact hb)
      · exact fun hc => hl hc.1
    · rw [if_neg hk]
      exact ih (some l)

theorem nat_max?_spec {a : Nat} {xs : List Nat} (h : xs.max? = some a) :
    a ∈ xs ∧ ∀ b ∈ xs, b ≤ a := by
  rw [List.max?_eq_some_iff] at h
  · exact h
  · exact fun a => Nat.le_refl a
  · exact fun a b => max_choice a b
  · exact fun a b c => Nat.max_le

theorem nat_min?_spec {a : Nat} {xs : List Nat} (h : xs.min? = some a) :
    a ∈ xs ∧ ∀ b ∈ xs, a ≤ b := by
  rw [List.min?_eq_some_iff] at h
  · exact h
  · exact fun a => Nat.le_refl a
  · exact fun a b => min_choice a b
  · exact fun a b c => Nat.le_min

/-- `lastIndexOf(" ", n)` either reports no space at positions `≤ n`, or
    returns the greatest such position. -/
theorem last_index_of_space_spec (l : List Char) (n : Nat) :
    (last_index_of_space l n = -1 ∧ ∀ j, j ≤ n → l.get? j ≠ some ' ') ∨
    (∃ k : Nat, last_index_of_space l n = (k : Int) ∧ k ≤ n ∧ k < l.length ∧
      l.get? k = some ' ' ∧ ∀ j, j ≤ n → l.get? j = some ' ' → j ≤ k) := by
  unfold last_index_of_space
  cases hm : ((List.range l.length).filter
      (fun i => i ≤ n && l.get? i == some ' ')).max? with
  | none =>
    left
    refine ⟨rfl, fun j hj hsp => ?_⟩
    rw [List.max?_eq_none_iff, List.filter_eq_nil_iff] at hm
    have hjlen : j < l.length := by
      by_contra hge
      rw [List.get?_eq_none.mpr (by omega)] at hsp
      exact Option.noConfusion hsp
    exact absurd (by
      simp only [Bool.and_eq_true, decide_eq_true_iff, beq_iff_eq]
      exact ⟨hj, hsp⟩) (hm j (List.mem_range.mpr hjlen))
  | some k =>
    right
    obtain ⟨hmem, hmax⟩ := nat_max?_spec hm
    rw [List.mem_filter, List.mem_range] at hmem
    obtain ⟨hklen, hcond⟩ := hmem
    rw [Bool.and_eq_true, decide_eq_true_iff, beq_iff_eq] at hcond
    refine ⟨k, rfl, hcond.1, hklen, hcond.2, fun j hj hsp => ?_⟩
    have hjlen : j < l.length := by
      by_contra hge
      rw [List.get?_eq_none.mpr (by omega)] at hsp
      exact Option.noConfusion hsp
    exact hmax j (by
      rw [List.mem_filter, List.mem_range]
      refine ⟨hjlen, ?_⟩
      simp only [Bool.and_eq_true, decide_eq_true_iff, beq_iff_eq]
      exact ⟨hj, hsp⟩)

/-- `indexOf(" ", n)` either reports no space at positions `≥ n`, or
    returns the least such position. -/
theorem index_of_space_from_spec (l : List Char) (n : Nat) :
    (index_of_space_from l n = -1 ∧ ∀ j, n ≤ j → l.get? j ≠ some ' ') ∨
    (∃ k : Nat, index_of_space_from l n = (k : Int) ∧ n ≤ k ∧ k < l.length ∧
      l.get? k = some ' ' ∧ ∀ j, n ≤ j → l.get? j = some ' ' → k ≤ j) := by
  unfold index_of_space_from
  cases hm : ((List.range l.length).filter
      (fun i => n ≤ i && l.get? i == some ' ')).min? with
  | none =>
    left
    refine ⟨rfl, fun j hj hsp => ?_⟩
    rw [List.min?_eq_none_iff, List.filter_eq_nil_iff] at hm
    have hjlen : j < l.length := by
      by_contra hge
      rw [List.get?_eq_none.mpr (by omega)] at hsp
      exact Option.noConfusion hsp
    exact absurd (by
      simp only [Bool.and_eq_true, decide_eq_true_iff, beq_iff_eq]
      exact ⟨hj, hsp⟩) (hm j (List.mem_range.mpr hjlen))
  | some k =>
    right
    obtain ⟨hmem, hmin⟩ := nat_min?_spec hm
    rw [List.mem_filter, List.mem_range] at hmem
    obtain ⟨hklen, hcond⟩ := hmem
    rw [Bool.and_eq_true, decide_eq_true_iff, beq_iff_eq] at hcond
    refine ⟨k, rfl, hcond.1, hklen, hcond.2, fun j hj hsp => ?_⟩
    have hjlen : j < l.length := by
      by_contra hge
      rw [List.get?_eq_none.mpr (by omega)] at hsp
      exact Option.noConfusion hsp
    exact hmin j (by
      rw [List.mem_filter, List.mem_range]
      refine ⟨hjlen, ?_⟩
      simp only [Bool.and_eq_true, decide_eq_true_iff, beq_iff_eq]
      exact ⟨hj, hsp⟩)

theorem split_fuel_zero (n : Nat) (lw : line_with_indent) :
    split_fuel 0 n lw = none := rfl

theorem split_fuel_succ (fuel n : Nat) (lw : line_with_indent) :
    split_fuel (fuel + 1) n lw =
      match split_step n lw with
      | .done out => some out
      | .piece p next => (split_fuel fuel n next).map (p :: ·) := rfl

theorem split_step_done_of_le {n : Nat} {lw : line_with_indent}
    (h : lw.line.length ≤ n) : split_step n lw = .done [lw.line] := by
  unfold split_step
  rw [if_pos h]

/-- A `piece` step of `split(n)` with `indent ≤ n` strictly shrinks the
    remaining line and preserves the recorded indent. -/
theorem split_step_piece_decreases {n : Nat} {lw : line_with_indent}
    {p : List Char} {next : line_with_indent}
    (hind : lw.indent ≤ n) (h : split_step n lw = .piece p next) :
    next.line.length < lw.line.length ∧ next.indent = lw.indent := by
  unfold split_step at h
  by_cases h1 : lw.line.length ≤ n
  · rw [if_pos h1] at h
    exact absurd h (by simp)
  · rw [if_neg h1] at h
    simp only [] at h
    by_cases hc : last_index_of_space lw.line n < 0 ∨
        last_index_of_space lw.line n < (lw.indent : Int)
    · rw [if_pos hc] at h
      by_cases h2 : index_of_space_from lw.line n < 0
      · rw [if_pos h2] at h
        exact absurd h (by simp)
      · rw [if_neg h2] at h
        injection h with hp hnext
        subst hnext
        rcases index_of_space_from_spec lw.line n with ⟨heq, _⟩ | ⟨k, hk, hnk, _, _, _⟩
        · rw [heq] at h2; omega
        · constructor
          · simp only [List.length_append, List.length_replicate, List.length_drop]
            rw [hk]
            omega
          · rfl
    · rw [if_neg hc] at h
      push_neg at hc
      by_cases h2 : last_index_of_space lw.line n < 0
      · omega
      · rw [if_neg h2] at h
        injection h with hp hnext
        subst hnext
        constructor
        · simp only [List.length_append, List.length_replicate, List.length_drop]
          omega
        · rfl

/-- With `indent ≤ n`, `split(n)` terminates: `length + 1` recursion steps
    always suffice. -/
theorem split_fuel_total (n : Nat) :
    ∀ (fuelm : Nat) (lw : line_with_indent), lw.indent ≤ n →
      lw.line.length ≤ fuelm → (split_fuel (fuelm + 1) n lw).isSome := by
  intro fuelm
  induction fuelm with
  | zero =>
    intro lw hind hlen
    rw [split_fuel_succ, split_step_done_of_le (by omega)]
    simp
  | succ m ih =>
    intro lw hind hlen
    rw [split_fuel_succ]
    cases hstep : split_step n lw with
    | done out => simp
    | piece p next =>
      obtain ⟨hlt, hin⟩ := split_step_piece_decreases hind hstep
      have hs := ih next (by omega) (by omega)
      simpa using hs

theorem not_mem_drop_of_no_space {l : List Char} {m : Nat}
    (h : ∀ j, m ≤ j → l.get? j ≠ some ' ') : ' ' ∉ l.drop m := by
  intro hmem
  obtain ⟨j, hj⟩ := List.mem_iff_get?.mp hmem
  rw [List.get?_drop] at hj
  exact h (m + j) (by omega) hj

/-- A `done` answer of one `split` step returns the line whole, and then
    either the line was short enough or it has no space at or after the
    recorded indent. -/
theorem split_step_done_cases {n : Nat} {lw : line_with_indent}
    {out : List (List Char)} (h : split_step n lw = .done out) :
    out = [lw.line] ∧
      (lw.line.length ≤ n ∨
        ∀ j, lw.indent ≤ j → lw.line.get? j ≠ some ' ') := by
  unfold split_step at h
  by_cases h1 : lw.line.length ≤ n
  · rw [if_pos h1] at h
    injection h with h
    exact ⟨h.symm, Or.inl h1⟩
  · rw [if_neg h1] at h
    simp only [] at h
    by_cases hc : last_index_of_space lw.line n < 0 ∨
        last_index_of_space lw.line n < (lw.indent : Int)
    · rw [if_pos hc] at h
      by_cases h2 : index_of_space_from lw.line n < 0
      · rw [if_pos h2] at h
        injection h with h
        refine ⟨h.symm, Or.inr fun j hj hsp => ?_⟩
        have hnos : ∀ j', n ≤ j' → lw.line.get? j' ≠ some ' ' := by
          rcases index_of_space_from_spec lw.line n with ⟨_, hn⟩ | ⟨k, hk, _, _, _, _⟩
          · exact hn
          · rw [hk] at h2; omega
        rcases Nat.le_total j n with hjn | hjn
        · rcases last_index_of_space_spec lw.line n with ⟨_, hn0⟩ |
            ⟨k₀, hk₀, _, _, _, hmax⟩
          · exact hn0 j hjn hsp
          · have hj0 : j ≤ k₀ := hmax j hjn hsp
            rw [hk₀] at hc
            omega
        · exact hnos j hjn hsp
      · rw [if_neg h2] at h
        exact absurd h (by simp)
    · rw [if_neg hc] at h
      push_neg at hc
      rw [if_neg (by omega)] at h
      exact absurd h (by simp)

/-- A `piece` answer of one `split` step emits a prefix of the line that
    is either short enough (break at the last space before the width) or
    has no space at or after the indent but before the cut (break at the
    first space after the width). -/
theorem split_step_piece_cases {n : Nat} {lw : line_with_indent}
    {p : List Char} {next : line_with_indent}
    (h : split_step n lw = .piece p next) :
    next.indent = lw.indent ∧
      ((∃ k : Nat, p = lw.line.take k ∧ k ≤ n) ∨
       (∃ k : Nat, p = lw.line.take k ∧
          ∀ j, lw.indent ≤ j → j < k → lw.line.get? j ≠ some ' ')) := by
  unfold split_step at h
  by_cases h1 : lw.line.length ≤ n
  · rw [if_pos h1] at h
    exact absurd h (by simp)
  · rw [if_neg h1] at h
    simp only [] at h
    by_cases hc : last_index_of_space lw.line n < 0 ∨
        last_index_of_space lw.line n < (lw.indent : Int)
    · rw [if_pos hc] at h
      by_cases h2 : index_of_space_from lw.line n < 0
      · rw [if_pos h2] at h
        exact absurd h (by simp)
      · rw [if_neg h2] at h
        injection h with hp hnext
        subst hnext
        refine ⟨rfl, Or.inr ?_⟩
        rcases index_of_space_from_spec lw.line n with ⟨heq, _⟩ |
          ⟨k, hk, hnk, _, _, hmin⟩
        · rw [heq] at h2; omega
        · refine ⟨(index_of_space_from lw.line n).toNat, hp.symm,
            fun j hj hjk hsp => ?_⟩
          rw [hk] at hjk
          rcases Nat.le_total j n with hjn | hjn
          · rcases last_index_of_space_spec lw.line n with ⟨_, hn0⟩ |
              ⟨k₀, hk₀, _, _, _, hmax⟩
            · exact hn0 j hjn hsp
            · have hj0 : j ≤ k₀ := hmax j hjn hsp
              rw [hk₀] at hc
              rcases hc with hc | hc
              · omega
              · omega
          · have := hmin j hjn hsp
            omega
    · rw [if_neg hc] at h
      push_neg at hc
      by_cases h2 : last_index_of_space lw.line n < 0
      · omega
      · rw [if_neg h2] at h
        injection h with hp hnext
        subst hnext
        refine ⟨rfl, Or.inl ?_⟩
        rcases last_index_of_space_spec lw.line n with ⟨heq, _⟩ |
          ⟨k₀, hk₀, hk₀n, _, _, _⟩
        · rw [heq] at h2; omega
        · exact ⟨(last_index_of_space lw.line n).toNat, hp.symm, by
            rw [hk₀]; omega⟩

/-- Every line a terminating run of `split(n)` outputs is at most `n`
    characters long, or carries spaces only inside its recorded leading
    indentation. -/
theorem split_fuel_line_invariant :
    ∀ (fuel n : Nat) (lw : line_with_indent) (out : List (List Char)),
      split_fuel fuel n lw = some out →
      ∀ l ∈ out, l.length ≤ n ∨ ' ' ∉ l.drop lw.indent := by
  intro fuel
  induction fuel with
  | zero => intro n lw out h; rw [split_fuel_zero] at h; cases h
  | succ m ih =>
    intro n lw out h
    rw [split_fuel_succ] at h
    cases hstep : split_step n lw with
    | done out' =>
      rw [hstep] at h
      simp only [] at h
      injection h with h
      subst h
      obtain ⟨hout, hcase⟩ := split_step_done_cases hstep
      subst hout
      intro l hl
      rw [List.mem_singleton] at hl
      subst hl
      rcases hcase with hlen | hnos
      · exact Or.inl hlen
      · exact Or.inr (not_mem_drop_of_no_space hnos)
    | piece p next =>
      rw [hstep] at h
      simp only [] at h
      obtain ⟨rest, hrest, hout⟩ := Option.map_eq_some'.mp h
      subst hout
      obtain ⟨hin, hcase⟩ := split_step_piece_cases hstep
      intro l hl
      rcases List.mem_cons.mp hl with hl | hl
      · subst hl
        rcases hcase with ⟨k, hp, hkn⟩ | ⟨k, hp, hnos⟩
        · left
          rw [hp, List.length_take]
          omega
        · right
          subst hp
          intro hmem
          obtain ⟨j, hj⟩ := List.mem_iff_get?.mp hmem
          rw [List.get?_drop] at hj
          have hjk : lw.indent + j < k := by
            by_contra hge
            rw [List.get?_eq_none.mpr (by
              rw [List.length_take]
              omega)] at hj
            exact Option.noConfusion hj
          rw [List.get?_take hjk] at hj
          exact hnos (lw.indent + j) (by omega) hjk hj
      · have := ih n next rest hrest l hl
        rw [hin] at this
        exact this

theorem int_range_succ (a : Int) (k : Nat) :
    int_range a (k + 1) = a :: int_range (a + 1) k := by
  unfold int_range
  rw [List.range_succ_eq_map, List.map_cons, List.map_map]
  congr 1
  · simp
  · apply List.map_congr_left
    intro i _
    simp only [Function.comp_apply]
    omega

theorem int_range_length (a : Int) (k : Nat) :
    (int_range a k).length = k := by
  simp [int_range]

/-- The stateful counter map rendered as a `zipWith` with the counter
    values `v+1, v+2, …`. -/
theorem number_map_eq_zipWith (r : resolved_options) (sp : Bool) :
    ∀ (ls : List (List Char)) (v : Int),
      number_map r sp v ls =
        List.zipWith (fun w l => (counter_pad r sp w).data ++ l)
          (int_range (v + 1) ls.length) ls := by
  intro ls
  induction ls with
  | nil => intro v; simp [number_map, int_range]
  | cons l ls ih =>
    intro v
    rw [number_map, ih (v + 1), List.length_cons, int_range_succ,
      List.zipWith_cons_cons]

/-! ## Helper lemmas for outdent idempotence (C9) -/

theorem getLast?_cons_ne_nil {x : Char} {l : List Char} (h : l ≠ []) :
    (x :: l).getLast? = l.getLast? := by
  cases l with
  | nil => exact absurd rfl h
  | cons y ys => exact List.getLast?_cons_cons

theorem getLast?_append_ne_nil (l₁ : List Char) {l₂ : List Char} (h : l₂ ≠ []) :
    (l₁ ++ l₂).getLast? = l₂.getLast? := by
  rw [List.getLast?_append]
  cases hx : l₂.getLast? with
  | none =>
    cases l₂ with
    | nil => exact absurd rfl h
    | cons y ys => rw [List.getLast?_eq_none_iff] at hx; exact absurd hx (by simp)
  | some c => rfl

/-- `rstrip` leaves a line unchanged exactly when its last character (if
    any) is not whitespace. -/
theorem rstrip_eq_self_iff {l : List Char} :
    rstrip l = l ↔ ∀ c, l.getLast? = some c → is_ws c = false := by
  unfold rstrip
  constructor
  · intro h c hc
    rw [← List.head?_reverse] at hc
    by_contra hws
    rw [Bool.not_eq_false] at hws
    cases hrev : l.reverse with
    | nil => rw [hrev] at hc; exact Option.noConfusion hc
    | cons a as =>
      rw [hrev] at hc
      injection hc with hc
      subst hc
      rw [hrev, List.dropWhile_cons_of_pos hws] at h
      have := congrArg List.length h
      rw [List.length_reverse] at this
      have hle := (List.dropWhile_sublist (l := as) is_ws).length_le
      have hlen : l.length = as.length + 1 := by
        have := congrArg List.length hrev
        simpa [List.length_reverse] using this
      omega
  · intro h
    cases hrev : l.reverse with
    | nil =>
      have : l = [] := by simpa using congrArg List.reverse hrev
      subst this; rfl
    | cons a as =>
      have ha : is_ws a = false := by
        apply h
        rw [← List.head?_reverse, hrev]
        rfl
      have hd : List.dropWhile is_ws (a :: as) = a :: as :=
        List.dropWhile_cons_of_neg (by simp [ha])
      rw [hd, ← hrev, List.reverse_reverse]

theorem rstrip_nonempty_getLast {l : List Char} (h : rstrip l = l)
    (hne : l ≠ []) : ∃ c, l.getLast? = some c ∧ is_ws c = false := by
  cases hc : l.getLast? with
  | none =>
    rw [List.getLast?_eq_none_iff] at hc
    exact absurd hc hne
  | some c => exact ⟨c, rfl, rstrip_eq_self_iff.mp h c hc⟩

theorem head?_dropWhile_ws {v : List Char} {c : Char}
    (h : (v.dropWhile is_ws).head? = some c) : is_ws c = false := by
  induction v with
  | nil => exact Option.noConfusion h
  | cons a as ih =>
    by_cases ha : is_ws a
    · rw [List.dropWhile_cons_of_pos ha] at h
      exact ih h
    · rw [List.dropWhile_cons_of_neg ha] at h
      injection h with h
      subst h
      simpa using ha

theorem rstrip_idem (l : List Char) : rstrip (rstrip l) = rstrip l := by
  apply rstrip_eq_self_iff.mpr
  intro c hc
  rw [← List.head?_reverse] at hc
  unfold rstrip at hc
  rw [List.reverse_reverse] at hc
  exact head?_dropWhile_ws hc

theorem collapse_runs_nil (b : Bool) : collapse_runs b [] = [] := rfl

theorem collapse_runs_cons (b : Bool) (c : Char) (cs : List Char) :
    collapse_runs b (c :: cs) =
      if is_ws c then
        if b then collapse_runs true cs else ' ' :: collapse_runs true cs
      else c :: collapse_runs false cs := rfl

/-- When the first character is not whitespace (or the list is empty) both
    collapse states behave the same. -/
theorem collapse_true_eq_false {u : List Char}
    (h : ∀ c, u.head? = some c → is_ws c = false) :
    collapse_runs true u = collapse_runs false u := by
  cases u with
  | nil => rfl
  | cons a as =>
    have ha : is_ws a = false := h a rfl
    rw [collapse_runs_cons, collapse_runs_cons, if_neg (by simp [ha]),
      if_neg (by simp [ha])]

theorem collapse_true_head {u : List Char} {c : Char}
    (h : (collapse_runs true u).head? = some c) : is_ws c = false := by
  induction u with
  | nil => exact Option.noConfusion h
  | cons a as ih =>
    rw [collapse_runs_cons] at h
    by_cases ha : is_ws a
    · rw [if_pos ha, if_pos rfl] at h
      exact ih h
    · rw [if_neg ha] at h
      injection h with h
      subst h
      simpa using ha

/-- Collapsed text: every whitespace character is a plain space and no two
    adjacent characters are both whitespace. -/
def normal_chars (v : List Char) : Prop :=
  List.Chain' (fun x y => ¬(is_ws x = true ∧ is_ws y = true)) v ∧
    ∀ c ∈ v, is_ws c = true → c = ' '

theorem collapse_normal : ∀ (u : List Char) (b : Bool),
    normal_chars (collapse_runs b u) := by
  intro u
  induction u with
  | nil => intro b; exact ⟨by simp [collapse_runs_nil], by simp [collapse_runs_nil]⟩
  | cons a as ih =>
    intro b
    rw [collapse_runs_cons]
    by_cases ha : is_ws a
    · rw [if_pos ha]
      cases b with
      | true => exact ih true
      | false =>
        simp only [Bool.false_eq_true, if_false]
        obtain ⟨hchain, hchars⟩ := ih true
        refine ⟨List.chain'_cons'.mpr ⟨fun y hy => ?_, hchain⟩, ?_⟩
        · intro hxy
          rw [collapse_true_head hy] at hxy
          exact Bool.noConfusion hxy.2
        · intro c hc hws
          rcases List.mem_cons.mp hc with hc | hc
          · exact hc
          · exact hchars c hc hws
    · rw [if_neg ha]
      obtain ⟨hchain, hchars⟩ := ih false
      refine ⟨List.chain'_cons'.mpr ⟨fun y hy => ?_, hchain⟩, ?_⟩
      · intro hxy
        exact ha hxy.1
      · intro c hc hws
        rcases List.mem_cons.mp hc with hc | hc
        · subst hc
          exact absurd hws (by simpa using ha)
        · exact hchars c hc hws

theorem normal_chars_tail {c : Char} {cs : List Char}
    (h : normal_chars (c :: cs)) : normal_chars cs :=
  ⟨(List.chain'_cons'.mp h.1).2, fun x hx => h.2 x (List.mem_cons_of_mem c hx)⟩

theorem collapse_eq_self_of_normal :
    ∀ {v : List Char}, normal_chars v → collapse_runs false v = v := by
  intro v
  induction v with
  | nil => intro _; rfl
  | cons c cs ih =>
    intro h
    rw [collapse_runs_cons]
    by_cases hc : is_ws c
    · rw [if_pos hc]
      simp only [Bool.false_eq_true, if_false]
      have hcsp : c = ' ' := h.2 c (List.mem_cons_self c cs) hc
      have hhead : ∀ d, cs.head? = some d → is_ws d = false := by
        intro d hd
        have := (List.chain'_cons'.mp h.1).1 d hd
        by_contra hws
        rw [Bool.not_eq_false] at hws
        exact this ⟨hc, hws⟩
      rw [collapse_true_eq_false hhead, ih (normal_chars_tail h), hcsp]
    · rw [if_neg hc, ih (normal_chars_tail h)]

theorem takeWhile_ws_append {A B : List Char}
    (hA : ∀ c ∈ A, is_ws c = true) :
    (A ++ B).takeWhile is_ws = A ++ B.takeWhile is_ws := by
  induction A with
  | nil => simp
  | cons a as ih =>
    rw [List.cons_append, List.takeWhile_cons_of_pos (hA a (by simp)),
      ih (fun c hc => hA c (by simp [hc])), List.cons_append]

theorem dropWhile_ws_append {A B : List Char}
    (hA : ∀ c ∈ A, is_ws c = true) :
    (A ++ B).dropWhile is_ws = B.dropWhile is_ws := by
  induction A with
  | nil => simp
  | cons a as ih =>
    rw [List.cons_append, List.dropWhile_cons_of_pos (hA a (by simp))]
    exact ih (fun c hc => hA c (by simp [hc]))

theorem collapse_false_head {u : List Char}
    (h : ∀ c, u.head? = some c → is_ws c = false) :
    (collapse_runs false u).head? = u.head? := by
  cases u with
  | nil => rfl
  | cons a as =>
    rw [collapse_runs_cons, if_neg (by simp [h a rfl])]
    rfl

/-- `foldｰspaces` is idempotent. -/
theorem fold_spaces_idem (l : List Char) :
    fold_spaces (fold_spaces l) = fold_spaces l := by
  unfold fold_spaces
  have hA : ∀ c ∈ l.takeWhile is_ws, is_ws c = true :=
    fun c hc => List.mem_takeWhile_imp hc
  have hhead : ∀ c, (l.dropWhile is_ws).head? = some c → is_ws c = false :=
    fun c hc => head?_dropWhile_ws hc
  have hChead : ∀ c, (collapse_runs false (l.dropWhile is_ws)).head? = some c →
      is_ws c = false := by
    intro c hc
    rw [collapse_false_head hhead] at hc
    exact hhead c hc
  have htW : (collapse_runs false (l.dropWhile is_ws)).takeWhile is_ws = [] := by
    cases hu : collapse_runs false (l.dropWhile is_ws) with
    | nil => rfl
    | cons a as =>
      have : is_ws a = false := hChead a (by rw [hu]; rfl)
      rw [List.takeWhile_cons_of_neg (by simp [this])]
  have hdW : (collapse_runs false (l.dropWhile is_ws)).dropWhile is_ws =
      collapse_runs false (l.dropWhile is_ws) := by
    cases hu : collapse_runs false (l.dropWhile is_ws) with
    | nil => rfl
    | cons a as =>
      have : is_ws a = false := hChead a (by rw [hu]; rfl)
      rw [List.dropWhile_cons_of_neg (by simp [this])]
  rw [takeWhile_ws_append hA, dropWhile_ws_append hA, htW, hdW,
    collapse_eq_self_of_normal (collapse_normal _ false), List.append_nil]

/-- The collapse preserves a non-whitespace last character. -/
theorem collapse_getLast :
    ∀ (u : List Char) (b : Bool) {c : Char}, u.getLast? = some c →
      is_ws c = false → (collapse_runs b u).getLast? = some c := by
  intro u
  induction u with
  | nil => intro b c h _; exact Option.noConfusion h
  | cons a as ih =>
    intro b c h hc
    by_cases hasne : as = []
    · subst hasne
      simp only [List.getLast?_singleton] at h
      injection h with h
      subst h
      rw [collapse_runs_cons, if_neg (by simp [hc])]
      rfl
    · rw [getLast?_cons_ne_nil hasne] at h
      have htail : ∀ b', (collapse_runs b' as).getLast? = some c :=
        fun b' => ih b' h hc
      have htailne : ∀ b', collapse_runs b' as ≠ [] := by
        intro b' hnil
        have := htail b'
        rw [hnil] at this
        exact Option.noConfusion this
      rw [collapse_runs_cons]
      by_cases ha : is_ws a
      · rw [if_pos ha]
        cases b with
        | true => exact htail true
        | false =>
          simp only [Bool.false_eq_true, if_false]
          rw [getLast?_cons_ne_nil (htailne true)]
          exact htail true
      · rw [if_neg ha, getLast?_cons_ne_nil (htailne false)]
        exact htail false

/-- `foldｰspaces` of a line with no trailing whitespace still has no
    trailing whitespace. -/
theorem rstrip_fold_spaces {l : List Char} (h : rstrip l = l) :
    rstrip (fold_spaces l) = fold_spaces l := by
  by_cases hl : l = []
  · subst hl; rfl
  · obtain ⟨c, hlast, hcws⟩ := rstrip_nonempty_getLast h hl
    have hCne : l.dropWhile is_ws ≠ [] := by
      intro hnil
      rw [List.dropWhile_eq_nil_iff] at hnil
      have hmem : c ∈ l := by
        cases hl' : l with
        | nil => exact absurd hl' hl
        | cons x xs =>
          rw [← hl']
          exact List.mem_of_mem_getLast? hlast
      rw [hnil c hmem] at hcws
      exact Bool.noConfusion hcws
    have hlastC : (l.dropWhile is_ws).getLast? = some c := by
      obtain ⟨t, ht⟩ := List.dropWhile_suffix (l := l) is_ws
      rw [← ht] at hlast
      rw [← getLast?_append_ne_nil t hCne]
      exact hlast
    have hlastCC : (collapse_runs false (l.dropWhile is_ws)).getLast? = some c :=
      collapse_getLast _ false hlastC hcws
    apply rstrip_eq_self_iff.mpr
    intro c' hc'
    unfold fold_spaces at hc'
    rw [getLast?_append_ne_nil _ (by
      intro hnil
      rw [hnil] at hlastCC
      exact Option.noConfusion hlastCC)] at hc'
    rw [hlastCC] at hc'
    injection hc' with hc'
    subst hc'
    exact hcws

/-- `rstrip`-fixed lines stay fixed after dropping a prefix. -/
theorem rstrip_drop {l : List Char} (h : rstrip l = l) (k : Nat) :
    rstrip (l.drop k) = l.drop k := by
  by_cases hd : l.drop k = []
  · rw [hd]; rfl
  · apply rstrip_eq_self_iff.mpr
    intro c hc
    obtain ⟨t, ht⟩ := List.drop_suffix k l
    have : l.getLast? = some c := by
      rw [← ht, getLast?_append_ne_nil _ hd]
      exact hc
    exact rstrip_eq_self_iff.mp h c this

/-- A line trims to nothing exactly when it is all whitespace. -/
theorem js_trim_eq_nil_iff {u : List Char} :
    js_trim u = [] ↔ ∀ c ∈ u, is_ws c = true := by
  have hsplit : u = rstrip u ++ (u.reverse.takeWhile is_ws).reverse := by
    conv_lhs => rw [← List.reverse_reverse u,
      ← List.takeWhile_append_dropWhile (p := is_ws) (l := u.reverse)]
    rw [List.reverse_append]
    rfl
  unfold js_trim
  constructor
  · intro h c hc
    rw [List.dropWhile_eq_nil_iff] at h
    conv at hc => rw [hsplit]
    rcases List.mem_append.mp hc with hc | hc
    · exact h c hc
    · exact List.mem_takeWhile_imp (List.mem_reverse.mp hc)
  · intro h
    have : rstrip u = [] := by
      unfold rstrip
      rw [List.dropWhile_eq_nil_iff.mpr
        (fun a ha => h a (List.mem_reverse.mp ha))]
      rfl
    rw [this]
    rfl

theorem mem_collapse_subset :
    ∀ {u : List Char} {b : Bool} {c : Char},
      c ∈ collapse_runs b u → c ∈ u ∨ c = ' ' := by
  intro u
  induction u with
  | nil => intro b c h; rw [collapse_runs_nil] at h; exact absurd h (by simp)
  | cons a as ih =>
    intro b c h
    rw [collapse_runs_cons] at h
    by_cases ha : is_ws a
    · rw [if_pos ha] at h
      cases b with
      | true =>
        rcases ih h with h | h
        · exact Or.inl (List.mem_cons_of_mem a h)
        · exact Or.inr h
      | false =>
        simp only [Bool.false_eq_true, if_false] at h
        rcases List.mem_cons.mp h with h | h
        · exact Or.inr h
        · rcases ih h with h | h
          · exact Or.inl (List.mem_cons_of_mem a h)
          · exact Or.inr h
    · rw [if_neg ha] at h
      rcases List.mem_cons.mp h with h | h
      · exact Or.inl (h ▸ List.mem_cons_self a as)
      · rcases ih h with h | h
        · exact Or.inl (List.mem_cons_of_mem a h)
        · exact Or.inr h

theorem mem_fold_spaces_subset {l : List Char} {c : Char}
    (h : c ∈ fold_spaces l) : c ∈ l ∨ c = ' ' := by
  unfold fold_spaces at h
  rcases List.mem_append.mp h with h | h
  · left
    rw [← List.takeWhile_append_dropWhile (p := is_ws) (l := l)]
    exact List.mem_append.mpr (Or.inl h)
  · rcases mem_collapse_subset h with h | h
    · left
      rw [← List.takeWhile_append_dropWhile (p := is_ws) (l := l)]
      exact List.mem_append.mpr (Or.inr h)
    · exact Or.inr h

theorem mem_rstrip_subset {l : List Char} {c : Char}
    (h : c ∈ rstrip l) : c ∈ l := by
  unfold rstrip at h
  rw [List.mem_reverse] at h
  have := (List.dropWhile_sublist (l := l.reverse) is_ws).subset h
  exact List.mem_reverse.mp this

/-! ### Splitting and joining newlines -/

theorem split_nl_ne_nil : ∀ (t : List Char), split_nl t ≠ [] := by
  intro t
  induction t with
  | nil => simp [split_nl]
  | cons c cs ih =>
    rw [split_nl]
    by_cases hc : c = '\n'
    · rw [if_pos hc]; simp
    · rw [if_neg hc]
      cases hs : split_nl cs with
      | nil => exact absurd hs ih
      | cons t ts => simp

theorem split_nl_no_nl : ∀ (t : List Char), ∀ p ∈ split_nl t, '\n' ∉ p := by
  intro t
  induction t with
  | nil =>
    intro p hp
    rw [List.mem_singleton.mp hp]
    simp
  | cons c cs ih =>
    intro p hp
    rw [split_nl] at hp
    by_cases hc : c = '\n'
    · rw [if_pos hc] at hp
      rcases List.mem_cons.mp hp with hp | hp
      · rw [hp]; simp
      · exact ih p hp
    · rw [if_neg hc] at hp
      cases hs : split_nl cs with
      | nil => exact absurd hs (split_nl_ne_nil cs)
      | cons t ts =>
        rw [hs] at hp
        rcases List.mem_cons.mp hp with hp | hp
        · subst hp
          intro hmem
          rcases List.mem_cons.mp hmem with hmem | hmem
          · exact hc hmem.symm
          · exact ih t (by rw [hs]; exact List.mem_cons_self t ts) hmem
        · exact ih p (by rw [hs]; exact List.mem_cons_of_mem t hp)

theorem split_nl_of_no_nl {l : List Char} (h : '\n' ∉ l) :
    split_nl l = [l] := by
  induction l with
  | nil => rfl
  | cons c cs ih =>
    rw [split_nl, if_neg (by intro hc; exact h (hc ▸ List.mem_cons_self c cs)),
      ih (fun hm => h (List.mem_cons_of_mem c hm))]

theorem split_nl_append {l r : List Char} (h : '\n' ∉ l) :
    split_nl (l ++ '\n' :: r) = l :: split_nl r := by
  induction l with
  | nil => rw [List.nil_append, split_nl, if_pos rfl]
  | cons c cs ih =>
    rw [List.cons_append, split_nl,
      if_neg (by intro hc; exact h (hc ▸ List.mem_cons_self c cs)),
      ih (fun hm => h (List.mem_cons_of_mem c hm))]

theorem join_nl_cons_cons (l l' : List Char) (ls : List (List Char)) :
    join_nl (l :: l' :: ls) = l ++ '\n' :: join_nl (l' :: ls) := rfl

theorem split_join_nl :
    ∀ (L : List (List Char)), L ≠ [] → (∀ l ∈ L, '\n' ∉ l) →
      split_nl (join_nl L) = L := by
  intro L
  induction L with
  | nil => intro h; exact absurd rfl h
  | cons l ls ih =>
    intro _ hno
    cases ls with
    | nil => exact split_nl_of_no_nl (hno l (by simp))
    | cons l' ls' =>
      rw [join_nl_cons_cons, split_nl_append (hno l (by simp)),
        ih (by simp) (fun x hx => hno x (List.mem_cons_of_mem l hx))]

/-! ### `dropｰblanks` as the identity on already-normalized sequences -/

theorem drop_blanks_eq_self :
    ∀ (W : List (List Char)) (prev : Option (List Char)),
      (∀ w ∈ W.head?, keep_line prev w = true) →
      List.Chain' (fun a b => keep_line (some a) b = true) W →
      drop_blanks prev W = W := by
  intro W
  induction W with
  | nil => intro prev _ _; rfl
  | cons w W' ih =>
    intro prev hhead hchain
    rw [drop_blanks_cons, if_pos (hhead w rfl)]
    obtain ⟨hh, hc⟩ := List.chain'_cons'.mp hchain
    rw [ih (some w) hh hc]

/-! ### Generic takeWhile/dropWhile helpers -/

theorem takeWhile_append_all {p : Char → Bool} {A B : List Char}
    (hA : ∀ c ∈ A, p c = true) :
    (A ++ B).takeWhile p = A ++ B.takeWhile p := by
  induction A with
  | nil => simp
  | cons a as ih =>
    rw [List.cons_append, List.takeWhile_cons_of_pos (hA a (by simp)),
      ih (fun c hc => hA c (by simp [hc])), List.cons_append]

theorem dropWhile_append_all {p : Char → Bool} {A B : List Char}
    (hA : ∀ c ∈ A, p c = true) :
    (A ++ B).dropWhile p = B.dropWhile p := by
  induction A with
  | nil => simp
  | cons a as ih =>
    rw [List.cons_append, List.dropWhile_cons_of_pos (hA a (by simp))]
    exact ih (fun c hc => hA c (by simp [hc]))

theorem head?_dropWhile_not {p : Char → Bool} {v : List Char} {c : Char}
    (h : (v.dropWhile p).head? = some c) : p c = false := by
  induction v with
  | nil => exact Option.noConfusion h
  | cons a as ih =>
    by_cases ha : p a
    · rw [List.dropWhile_cons_of_pos ha] at h
      exact ih h
    · rw [List.dropWhile_cons_of_neg ha] at h
      injection h with h
      subst h
      simpa using ha

theorem takeWhile_length_mono {p q : Char → Bool} {l : List Char}
    (h : ∀ c, p c = true → q c = true) :
    (l.takeWhile p).length ≤ (l.takeWhile q).length := by
  induction l with
  | nil => simp
  | cons a as ih =>
    by_cases ha : p a
    · rw [List.takeWhile_cons_of_pos ha, List.takeWhile_cons_of_pos (h a ha)]
      simpa using ih
    · rw [List.takeWhile_cons_of_neg ha]
      simp

/-! ### The normalized-line invariant -/

/-- A line as produced by `textｰlines`: already trailing-trimmed, already
    whitespace-folded, and containing no newline. -/
def normal_line (l : List Char) : Prop :=
  rstrip l = l ∧ fold_spaces l = l ∧ '\n' ∉ l

theorem drop_blanks_subset :
    ∀ (W : List (List Char)) (prev : Option (List Char)) (l : List Char),
      l ∈ drop_blanks prev W → l ∈ W := by
  intro W
  induction W with
  | nil => intro prev l h; exact absurd h (by simp [drop_blanks_nil])
  | cons w W' ih =>
    intro prev l h
    rw [drop_blanks_cons] at h
    by_cases hk : keep_line prev w = true
    · rw [if_pos hk] at h
      rcases List.mem_cons.mp h with h | h
      · exact h ▸ List.mem_cons_self w W'
      · exact List.mem_cons_of_mem w (ih (some w) l h)
    · rw [if_neg hk] at h
      exact List.mem_cons_of_mem w (ih (some w) l h)

theorem normalized_lines_normal (x : List Char) :
    ∀ l ∈ normalized_lines x, normal_line l := by
  intro l hl
  unfold normalized_lines at hl
  obtain ⟨u, hu, hlu⟩ := List.mem_map.mp hl
  obtain ⟨q, hq, hqu⟩ := List.mem_map.mp hu
  subst hlu hqu
  refine ⟨rstrip_fold_spaces (rstrip_idem q), fold_spaces_idem _, ?_⟩
  intro hmem
  rcases mem_fold_spaces_subset hmem with hmem | hmem
  · exact split_nl_no_nl x q hq (mem_rstrip_subset hmem)
  · exact absurd hmem (by decide)

theorem text_lines_c_normal (x : List Char) :
    ∀ l ∈ text_lines_c x, normal_line l := fun l hl =>
  normalized_lines_normal x l (drop_blanks_subset _ none l hl)

/-- A trailing-trimmed non-empty line trims to something non-empty. -/
theorem nonblank_of_rstrip_ne {l : List Char} (h : rstrip l = l)
    (hne : l ≠ []) : js_trim l ≠ [] := by
  intro htrim
  rw [js_trim_eq_nil_iff] at htrim
  obtain ⟨c, hlast, hcws⟩ := rstrip_nonempty_getLast h hne
  rw [htrim c (List.mem_of_mem_getLast? hlast)] at hcws
  exact Bool.noConfusion hcws

/-- A normal line that trims to nothing is empty. -/
theorem normal_blank_eq_nil {l : List Char} (h : normal_line l)
    (htrim : js_trim l = []) : l = [] := by
  by_contra hne
  exact nonblank_of_rstrip_ne h.1 hne htrim

/-! ### `minｰindentation` -/

theorem min_indentation_spec {L : List (List Char)} {k : Nat}
    (h : min_indentation L = some k) :
    (∃ l ∈ L, js_trim l ≠ [] ∧ leading_spaces l = k) ∧
      ∀ l ∈ L, js_trim l ≠ [] → k ≤ leading_spaces l := by
  unfold min_indentation at h
  obtain ⟨hmem, hmin⟩ := nat_min?_spec h
  constructor
  · obtain ⟨l, hl, hlk⟩ := List.mem_map.mp hmem
    obtain ⟨hlL, hpred⟩ := List.mem_filter.mp hl
    refine ⟨l, hlL, ?_, hlk⟩
    simpa using hpred
  · intro l hl htrim
    exact hmin (leading_spaces l)
      (List.mem_map.mpr ⟨l, List.mem_filter.mpr ⟨hl, by simpa using htrim⟩, rfl⟩)

theorem min_indentation_some_of_nonblank {L : List (List Char)}
    {l : List Char} (hl : l ∈ L) (htrim : js_trim l ≠ []) :
    ∃ k, min_indentation L = some k := by
  cases h : min_indentation L with
  | some k => exact ⟨k, rfl⟩
  | none =>
    unfold min_indentation at h
    rw [List.min?_eq_none_iff, List.map_eq_nil, List.filter_eq_nil_iff] at h
    exact absurd (by simpa using htrim) (h l hl)

/-! ### Slicing by the minimum indentation -/

theorem js_trim_drop_ne {l : List Char} {k : Nat} (hk : k ≤ leading_spaces l)
    (h : js_trim l ≠ []) : js_trim (l.drop k) ≠ [] := by
  intro hnil
  rw [js_trim_eq_nil_iff] at hnil
  apply h
  rw [js_trim_eq_nil_iff]
  intro c hc
  rw [← List.take_append_drop k l] at hc
  rcases List.mem_append.mp hc with hc | hc
  · have htk : l.take k =
        (l.takeWhile (fun c => c = ' ')).take k := by
      conv_lhs => rw [← List.takeWhile_append_dropWhile
        (p := fun c => c = ' ') (l := l)]
      exact List.take_append_of_le_length hk
    rw [htk] at hc
    have := List.mem_takeWhile_imp (List.mem_of_mem_take hc)
    have hsp : c = ' ' := by simpa using this
    rw [hsp]
    rfl
  · exact hnil c hc

theorem leading_spaces_drop {l : List Char} {k : Nat}
    (hk : k ≤ leading_spaces l) :
    leading_spaces (l.drop k) = leading_spaces l - k := by
  unfold leading_spaces at *
  have hsplit : l.drop k =
      (l.takeWhile (fun c => c = ' ')).drop k ++ l.dropWhile (fun c => c = ' ') := by
    conv_lhs => rw [← List.takeWhile_append_dropWhile
      (p := fun c => c = ' ') (l := l)]
    exact List.drop_append_of_le_length hk
  have hAsp : ∀ c ∈ (l.takeWhile (fun c => c = ' ')).drop k,
      (fun c => decide (c = ' ')) c = true := by
    intro c hc
    have h1 : c ∈ l.takeWhile (fun c => decide (c = ' ')) :=
      List.mem_of_mem_drop hc
    have h2 := List.mem_takeWhile_imp h1
    exact h2
  rw [hsplit, takeWhile_append_all hAsp]
  have hW : (l.dropWhile (fun c => c = ' ')).takeWhile (fun c => c = ' ') = [] := by
    cases hu : l.dropWhile (fun c => c = ' ') with
    | nil => rfl
    | cons a as =>
      have : (fun c => decide (c = ' ')) a = false :=
        head?_dropWhile_not (p := fun c => decide (c = ' ')) (v := l)
          (by rw [hu]; rfl)
      rw [List.takeWhile_cons_of_neg (by simpa using this)]
  rw [hW, List.append_nil, List.length_drop]

theorem fold_spaces_drop {l : List Char} {k : Nat}
    (hfold : fold_spaces l = l) (hk : k ≤ (l.takeWhile is_ws).length) :
    fold_spaces (l.drop k) = l.drop k := by
  have hsplit : l.drop k =
      (l.takeWhile is_ws).drop k ++ l.dropWhile is_ws := by
    conv_lhs => rw [← List.takeWhile_append_dropWhile (p := is_ws) (l := l)]
    exact List.drop_append_of_le_length hk
  have hA : ∀ c ∈ (l.takeWhile is_ws).drop k, is_ws c = true :=
    fun c hc => List.mem_takeWhile_imp (List.mem_of_mem_drop hc)
  have htWB : (l.dropWhile is_ws).takeWhile is_ws = [] := by
    cases hu : l.dropWhile is_ws with
    | nil => rfl
    | cons a as =>
      have : is_ws a = false := by
        apply head?_dropWhile_not (v := l)
        rw [hu]; rfl
      rw [List.takeWhile_cons_of_neg (by simp [this])]
  have hdWB : (l.dropWhile is_ws).dropWhile is_ws = l.dropWhile is_ws := by
    cases hu : l.dropWhile is_ws with
    | nil => rfl
    | cons a as =>
      have : is_ws a = false := by
        apply head?_dropWhile_not (v := l)
        rw [hu]; rfl
      rw [List.dropWhile_cons_of_neg (by simp [this])]
  have hcoll : collapse_runs false (l.dropWhile is_ws) = l.dropWhile is_ws := by
    have h1 : fold_spaces l =
        l.takeWhile is_ws ++ collapse_runs false (l.dropWhile is_ws) := rfl
    have h2 : l = l.takeWhile is_ws ++ l.dropWhile is_ws :=
      (List.takeWhile_append_dropWhile (p := is_ws) (l := l)).symm
    rw [h1] at hfold
    conv_rhs at hfold => rw [h2]
    exact List.append_cancel_left hfold
  unfold fold_spaces
  rw [hsplit, takeWhile_append_all hA, dropWhile_append_all hA, htWB,
    List.append_nil, hdWB, hcoll]

theorem leading_le_takeWhile_ws (l : List Char) :
    leading_spaces l ≤ (l.takeWhile is_ws).length := by
  unfold leading_spaces
  apply takeWhile_length_mono
  intro c hc
  have : c = ' ' := by simpa using hc
  rw [this]
  rfl

/-! ### Re-normalizing an already-normalized joined text -/

theorem data_mk (l : List Char) : (String.mk l).data = l := rfl

/-- `` tag`${s}` `` merges back to `s` itself. -/
theorem identity_of_string (s : String) :
    identity_tag (template_of_string s) = s := by
  show "" ++ List.getD [s, ""] 0 js_undefined ++
      ("" ++ List.getD [s, ""] 1 js_undefined ++ "") = s
  simp only [List.getD_cons_zero, List.getD_cons_succ]
  apply String.ext
  simp [String.data_append]

/-- `textｰlines` is the identity on the join of a sequence of normalized
    lines whose blank pattern it would itself produce. -/
theorem text_lines_c_of_normal_join {W : List (List Char)}
    (hW : W ≠ [])
    (hnorm : ∀ l ∈ W, rstrip l = l ∧ fold_spaces l = l ∧ '\n' ∉ l)
    (hhead : ∀ w ∈ W.head?, w ≠ [])
    (hchain : List.Chain' (fun a b => b = [] → js_trim a ≠ []) W) :
    text_lines_c (join_nl W) = W := by
  unfold text_lines_c normalized_lines
  rw [split_join_nl W hW (fun l hl => (hnorm l hl).2.2)]
  rw [List.map_congr_left (g := id) (fun l hl => (hnorm l hl).1), List.map_id]
  rw [List.map_congr_left (g := id) (fun l hl => (hnorm l hl).2.1), List.map_id]
  apply drop_blanks_eq_self
  · intro w hw
    unfold keep_line
    have : w ≠ [] := hhead w hw
    simp [this]
  · refine hchain.imp ?_
    intro a b hab
    unfold keep_line
    by_cases hb : b = []
    · have := hab hb
      simp [this]
    · simp [hb]

/-- A membership-aware congruence for `Chain'` under `map`. -/
theorem chain'_map_of_mem {α β : Type} {P : α → Prop} {R : α → α → Prop}
    {S : β → β → Prop} {f : α → β} :
    ∀ {L : List α}, (∀ l ∈ L, P l) → List.Chain' R L →
      (∀ a b, P a → P b → R a b → S (f a) (f b)) →
      List.Chain' S (L.map f) := by
  intro L
  induction L with
  | nil => intro _ _ _; simp
  | cons a L ih =>
    intro hP hc himp
    rw [List.map_cons]
    obtain ⟨hh, ht⟩ := List.chain'_cons'.mp hc
    refine List.chain'_cons'.mpr ⟨?_, ih (fun l hl => hP l (by simp [hl])) ht himp⟩
    intro y hy
    rw [List.head?_map] at hy
    obtain ⟨b, hb, hfb⟩ := Option.map_eq_some'.mp hy
    subst hfb
    exact himp a b (hP a (by simp)) (hP b (by simp [List.mem_of_mem_head? hb]))
      (hh b hb)

/-- The body of `outdent`, applied twice to the same normalized text,
    stabilizes after the first application. -/
theorem outdent_data_idem (x : List Char) :
    join_nl ((text_lines_c (join_nl ((text_lines_c x).map
        (drop_indentation (min_indentation (text_lines_c x)))))).map
      (drop_indentation (min_indentation (text_lines_c (join_nl
        ((text_lines_c x).map
          (drop_indentation (min_indentation (text_lines_c x))))))))) =
    join_nl ((text_lines_c x).map
      (drop_indentation (min_indentation (text_lines_c x)))) := by
  by_cases hLnil : text_lines_c x = []
  · rw [hLnil]
    rfl
  · set L := text_lines_c x with hLdef
    set m := min_indentation L with hmdef
    set L' := L.map (drop_indentation m) with hLs
    have hnorm : ∀ l ∈ L, normal_line l := text_lines_c_normal x
    have hheadne : L.head? ≠ some [] := by
      rw [hLdef]
      exact drop_blanks_head_ne_nil _ none trivial
    have hchain0 : List.Chain' (fun a b => ¬(a = [] ∧ b = [])) L := by
      rw [hLdef]
      exact drop_blanks_chain _ none
    obtain ⟨w, W, hW⟩ : ∃ w W, L = w :: W := by
      cases hc : L with
      | nil => exact absurd hc hLnil
      | cons w W => exact ⟨w, W, rfl⟩
    have hwmem : w ∈ L := by rw [hW]; simp
    have hwne : w ≠ [] := by
      intro h
      apply hheadne
      rw [hW, h]
      rfl
    have hwtrim : js_trim w ≠ [] :=
      nonblank_of_rstrip_ne (hnorm w hwmem).1 hwne
    obtain ⟨k, hk⟩ : ∃ k, m = some k := by
      rw [hmdef]
      exact min_indentation_some_of_nonblank hwmem hwtrim
    obtain ⟨⟨l₀, hl₀L, hl₀trim, hl₀lead⟩, hmink⟩ :=
      min_indentation_spec (hmdef ▸ hk : min_indentation L = some k)
    have hdropk : ∀ l, drop_indentation m l = l.drop k := by
      intro l
      rw [hk]
      rfl
    -- every sliced line is still normalized
    have hL'norm : ∀ l' ∈ L',
        rstrip l' = l' ∧ fold_spaces l' = l' ∧ '\n' ∉ l' := by
      intro l' hl'
      rw [hLs] at hl'
      obtain ⟨l, hlL, hll'⟩ := List.mem_map.mp hl'
      rw [hdropk l] at hll'
      subst hll'
      have hn := hnorm l hlL
      by_cases hblank : js_trim l = []
      · rw [normal_blank_eq_nil hn hblank, List.drop_nil]
        exact ⟨rfl, rfl, by simp⟩
      · have hkle : k ≤ leading_spaces l := hmink l hlL hblank
        exact ⟨rstrip_drop hn.1 k,
          fold_spaces_drop hn.2.1 (le_trans hkle (leading_le_takeWhile_ws l)),
          fun hm => hn.2.2 (List.mem_of_mem_drop hm)⟩
    -- the sliced head is still non-blank
    have hL'head : ∀ w' ∈ L'.head?, w' ≠ [] := by
      intro w' hw'
      rw [hLs, hW, List.map_cons, List.head?_cons] at hw'
      injection hw' with hw'
      subst hw'
      rw [hdropk w]
      intro hnil
      apply js_trim_drop_ne (hmink w hwmem hwtrim) hwtrim
      rw [hnil]
      rfl
    -- the blank pattern survives slicing
    have hL'chain : List.Chain' (fun a b => b = [] → js_trim a ≠ []) L' := by
      rw [hLs]
      refine chain'_map_of_mem
        (P := fun l => normal_line l ∧ (js_trim l ≠ [] → k ≤ leading_spaces l))
        (fun l hl => ⟨hnorm l hl, hmink l hl⟩) hchain0 ?_
      intro a b hPa hPb hab
      rw [hdropk a, hdropk b]
      intro hb'
      have hbblank : js_trim b = [] := by
        by_contra hbtrim
        apply js_trim_drop_ne (hPb.2 hbtrim) hbtrim
        rw [hb']
        rfl
      have hbnil : b = [] := normal_blank_eq_nil hPb.1 hbblank
      have hane : a ≠ [] := fun ha => hab ⟨ha, hbnil⟩
      have hatrim : js_trim a ≠ [] := nonblank_of_rstrip_ne hPa.1.1 hane
      exact js_trim_drop_ne (hPa.2 hatrim) hatrim
    have hL'ne : L' ≠ [] := by
      rw [hLs, hW]
      simp
    have hpass2 : text_lines_c (join_nl L') = L' :=
      text_lines_c_of_normal_join hL'ne hL'norm hL'head hL'chain
    have hmin' : min_indentation L' = some 0 := by
      unfold min_indentation
      rw [List.min?_eq_some_iff (fun a => Nat.le_refl a)
        (fun a b => min_choice a b) (fun a b c => Nat.le_min)]
      constructor
      · apply List.mem_map.mpr
        refine ⟨l₀.drop k, List.mem_filter.mpr ⟨?_, ?_⟩, ?_⟩
        · rw [hLs]
          apply List.mem_map.mpr
          exact ⟨l₀, hl₀L, hdropk l₀⟩
        · have := js_trim_drop_ne (hmink l₀ hl₀L hl₀trim) hl₀trim
          simpa using this
        · rw [leading_spaces_drop (hl₀lead ▸ Nat.le_refl k), hl₀lead]
          omega
      · intro b _
        exact Nat.zero_le b
    rw [hpass2, hmin']
    congr 1
    rw [List.map_congr_left (g := id) (fun l _ => by
      show drop_indentation (some 0) l = l
      unfold drop_indentation
      exact List.drop_zero l), List.map_id]

/-! # Claim theorems -/

/-- C2 counterexample: with width `0` and the line `" ab"` recorded at
indent `1`, one recursive step of the splitting routine emits an empty
fragment and leaves the remaining line UNCHANGED (`" ab"` again, same
length), so the recursion does not strictly decrease the remaining line
length — and indeed never terminates: 50 steps of fuel still do not
finish. -/
theorem C2_counterexample :
    split_step 0 ⟨1, " ab".data⟩ = .piece [] ⟨1, " ab".data⟩ ∧
      split_fuel 50 0 ⟨1, " ab".data⟩ = none := by
  constructor
  · rfl
  · rfl

/-- C2 (amended): the line-splitting recursion of `wrap(n)` strictly
decreases the remaining line length — and hence terminates, with
`length + 1` steps of fuel always sufficient — PROVIDED the width `n` is
at least the line's recorded indentation (`lw.indent ≤ n`); for
`n < indent` the recursion can loop forever, as the counterexample
shows. -/
theorem C2_split_termination :
    (∀ (n : Nat) (lw : line_with_indent) (p : List Char)
        (next : line_with_indent),
        lw.indent ≤ n → split_step n lw = .piece p next →
        next.line.length < lw.line.length ∧ next.indent = lw.indent)
    ∧ (∀ (n : Nat) (lw : line_with_indent), lw.indent ≤ n →
        (split_fuel (lw.line.length + 1) n lw).isSome) :=
  ⟨fun _ _ _ _ hind h => split_step_piece_decreases hind h,
   fun n lw hind => split_fuel_total n lw.line.length lw hind (Nat.le_refl _)⟩

/-- C2 witness: the termination bound and the strict decrease at the
concrete line `"  abcdefgh ij"` with indent 2 and width 4. -/
theorem C2_split_termination_witness :
    2 ≤ 4 ∧
      (split_fuel ("  abcdefgh ij".data.length + 1) 4
        ⟨2, "  abcdefgh ij".data⟩).isSome ∧
      ("  ij".data.length < "  abcdefgh ij".data.length ∧ 2 = 2) :=
  ⟨by decide,
   C2_split_termination.2 4 ⟨2, "  abcdefgh ij".data⟩ (by decide),
   C2_split_termination.1 4 ⟨2, "  abcdefgh ij".data⟩ "  abcdefgh".data
     ⟨2, "  ij".data⟩ (by decide) (by decide)⟩

/-- C3 counterexample: `wrap(4)` on the string `"  abcdefgh ij"` outputs
the physical line `"  abcdefgh"`, which is 10 > 4 characters long AND
contains space characters (inside its leading indentation), violating
"length at most n or no space at all". -/
theorem C3_counterexample :
    wrap_string_fuel 100 4 "  abcdefgh ij" = some "  abcdefgh\n  ij" ∧
      (split_nl "  abcdefgh\n  ij".data).head? = some "  abcdefgh".data ∧
      ¬("  abcdefgh".data.length ≤ 4) ∧ ' ' ∈ "  abcdefgh".data := by
  refine ⟨rfl, rfl, by decide, by decide⟩

/-- C3 (amended): every physical line a terminating run of the
line-splitting routine of `wrap(n)` produces either has length at most
`n`, or contains no space character at or beyond the line's recorded
indentation — an over-long output line may still carry spaces inside its
leading indentation. -/
theorem C3_split_line_invariant (fuel n : Nat) (lw : line_with_indent)
    (out : List (List Char)) (h : split_fuel fuel n lw = some out) :
    ∀ l ∈ out, l.length ≤ n ∨ ' ' ∉ l.drop lw.indent :=
  split_fuel_line_invariant fuel n lw out h

/-- C3 witness: the invariant instantiated on the counterexample run. -/
theorem C3_split_line_invariant_witness :
    split_fuel 100 4 ⟨2, "  abcdefgh ij".data⟩ =
        some ["  abcdefgh".data, "  ij".data] ∧
      ∀ l ∈ ["  abcdefgh".data, "  ij".data],
        l.length ≤ 4 ∨ ' ' ∉ l.drop 2 :=
  ⟨by decide,
   C3_split_line_invariant 100 4 ⟨2, "  abcdefgh ij".data⟩
     ["  abcdefgh".data, "  ij".data] (by decide)⟩

/-- C5 counterexample: a leading blank line is NOT kept — on the input
`"\nx"` (blank first line, then `"x"`) the normalization drops the
leading blank line, while the claim requires it to be kept once. -/
theorem C5_counterexample :
    text_lines "\nx" = ["x"] ∧ text_lines "\nx" ≠ ["", "x"] := by
  constructor
  · rfl
  · decide

/-- C5 (amended): the normalization drops a blank line unless the
previous source line was non-blank; consequently at most one blank line
separates two non-blank lines, and the output never BEGINS with a blank
line (a leading blank line is dropped, not kept). -/
theorem C5_blank_line_dropping (s : String) :
    (text_lines s).head? ≠ some "" ∧
      List.Chain' (fun a b => ¬(a = "" ∧ b = "")) (text_lines s) := by
  unfold text_lines text_lines_c
  constructor
  · rw [List.head?_map]
    intro h
    obtain ⟨l, hl, hmk⟩ := Option.map_eq_some'.mp h
    have : l = [] := by
      have := congrArg String.data hmk
      simpa using this
    exact drop_blanks_head_ne_nil _ none trivial (this ▸ hl)
  · rw [List.chain'_map]
    refine (drop_blanks_chain _ none).imp ?_
    intro a b hab hc
    refine hab ⟨?_, ?_⟩
    · have := congrArg String.data hc.1
      simpa using this
    · have := congrArg String.data hc.2
      simpa using this

/-- C6 counterexample: on a template with three segments and one value
(two values missing), `identity` renders the second missing value as the
string `"undefined"`, not as the empty string the claim requires. -/
theorem C6_counterexample :
    identity_tag ⟨["a", "b", "c"], ["x"]⟩ = "axbcundefined" ∧
      identity_tag ⟨["a", "b", "c"], ["x"]⟩ ≠ "axbc" := by
  constructor
  · rfl
  · decide

/-- C6 (amended): when values run short, the FIRST missing value renders
as the empty string (the one filler `identity` pushes) and every further
missing value renders as `"undefined"`; no error is raised (the function
is total): the output is exactly the interleaving of the segments with
the value list padded by `""` and then by `"undefined"`. -/
theorem C6_missing_values (ss vs : List String) :
    identity_tag ⟨ss, vs⟩ =
      concat_interleave ss
        (vs ++ [""] ++
          List.replicate (ss.length - (vs.length + 1)) js_undefined) := by
  show identity_from (vs ++ [""]) 0 ss = _
  rw [identity_from_eq]
  simp

/-- C7 (code bug): `numbering` assigns
`options.padｰwidth = maxｰpaddingｰwidth(…)` UNCONDITIONALLY, so a
caller-supplied explicit width is overwritten by the computed one: with
`padｰwidth: 7` on a 3-line input the numbers are still padded to the
computed width 1 (`ceil(log 3 / log 10) = 1`, no sign), not to 7. -/
theorem C7_explicit_width_overwritten :
    numbering_run {pad_width := some 7} "a\nb\nc" = "1. a\n2. b\n3. c" ∧
      numbering_run {pad_width := some 7} "a\nb\nc" ≠
        "      1. a\n      2. b\n      3. c" ∧
      (numbering_resolve {pad_width := some 7} 3).pad_width = some 1 := by
  refine ⟨rfl, by decide, rfl⟩

/-- C8: `numbering({numberｰfrom: -29, numberingｰscheme: "roman"})` on any
27-line input produces exactly 27 output lines, each the original line
prefixed by the rendered counter (values `-28 … -2`); every number field
is padded to the same total character width (7 characters for the number,
9 with the default suffix `". "`), and a `-` sign appears exactly on the
lines whose number is below zero (here: all of them). -/
theorem C8_roman_negative_numbering (text : String)
    (h27 : (text_lines text).length = 27) :
    numbering_lines C8_options text =
      List.zipWith (fun v l => counter_pad C8_resolved true v ++ l)
        (int_range (-28) 27) (text_lines text)
    ∧ (numbering_lines C8_options text).length = 27
    ∧ ∀ v ∈ int_range (-28) 27,
        (counter_padder C8_resolved true v).length = 7 ∧
        (counter_pad C8_resolved true v).length = 9 ∧
        v < 0 ∧ ('-' ∈ (counter_pad C8_resolved true v).data ↔ v < 0) := by
  have hlen : (text_lines_c text.data).length = 27 := by
    have := h27
    unfold text_lines at this
    simpa using this
  have hmain : numbering_lines C8_options text =
      List.zipWith (fun v l => counter_pad C8_resolved true v ++ l)
        (int_range (-28) 27) (text_lines text) := by
    unfold numbering_lines
    simp only []
    rw [hlen]
    have hsp : parse_int_is_nan (counter_resolve
        (numbering_resolve C8_options 27)).pad_with = true := by decide
    rw [hsp]
    rw [number_map_eq_zipWith]
    have hfrom : (counter_resolve (numbering_resolve C8_options 27)).number_from
        = -29 := by decide
    rw [hfrom, hlen]
    show List.map String.mk
        (List.zipWith (fun w l => (counter_pad C8_resolved true w).data ++ l)
          (int_range (-29 + 1) 27) (text_lines_c text.data)) = _
    have h28 : (-29 + 1 : Int) = -28 := by decide
    rw [h28]
    unfold text_lines
    rw [List.map_zipWith, List.zipWith_map_right]
    rfl
  refine ⟨hmain, ?_, by decide⟩
  rw [hmain, List.length_zipWith, int_range_length, h27]
  simp

/-- C8 witness: the scenario instantiated on a concrete 27-line input. -/
theorem C8_roman_negative_numbering_witness :
    (text_lines C8_sample).length = 27 ∧
      (numbering_lines C8_options C8_sample).length = 27 :=
  ⟨by decide, (C8_roman_negative_numbering C8_sample (by decide)).2.1⟩

/-- C9: `outdent` is idempotent — in fact for EVERY input string (not
only normalized ones with uniform base indentation):
`outdent(outdent(s)) = outdent(s)`, because the first application
normalizes the text and strips the minimum indentation, after which the
minimum indentation is zero and re-normalization changes nothing. -/
theorem C9_outdent_idempotent (s : String) :
    outdent_string (outdent_string s) = outdent_string s := by
  unfold outdent_string outdent_tag
  simp only []
  rw [identity_of_string, identity_of_string, data_mk]
  exact congrArg String.mk (outdent_data_idem s.data)

/-- C10: the alphabetic scheme returns the empty string for every
`n < 1` (in particular 0), the Roman scheme returns the empty string for
0, and consequently a counter value that renders as zero shows only
prefix, padding (built from the zero-row fill) and suffix, with no
numeral characters, whichever padding branch is active. -/
theorem C10_zero_renders_empty :
    (∀ n : Int, n < 1 →
        alphabetize false n "" = "" ∧ alphabetize true n "" = "")
    ∧ romanize false 0 "" = "" ∧ romanize true 0 "" = ""
    ∧ (∀ (r : resolved_options) (sp : Bool),
        (r.scheme = .alpha ∨ r.scheme = .Alpha ∨
          r.scheme = .roman ∨ r.scheme = .Roman) →
        r.sign_all = false →
        counter_pad r sp 0 =
          r.pfx ++ String.mk (pad_start [] r.pad_width r.pad_zero_with.data) ++
            r.suffix) := by
  refine ⟨fun n h => ⟨?_, ?_⟩, by decide, by decide, fun r sp hscheme hsa => ?_⟩
  · unfold alphabetize alphabetize_fuel
    rw [if_pos h]
  · unfold alphabetize alphabetize_fuel
    rw [if_pos h]
  · have h0 : numbering_schemes r.scheme (Int.natAbs 0 : Int) = "" := by
      rcases hscheme with h | h | h | h <;> rw [h] <;> decide
    unfold counter_pad counter_padder
    rw [hsa]
    simp only [Bool.false_eq_true, if_false, h0]
    have hlt : ¬((0 : Int) < 0) := by decide
    have hne : ¬((0 : Int) ≠ 0) := by decide
    rw [if_neg hlt, if_neg hne]
    cases sp with
    | true =>
      simp only [if_true]
      rfl
    | false =>
      simp only [Bool.false_eq_true, if_false]
      rw [if_neg (show ¬((0 : Int) < 0 ∧ (!false) = true) by decide)]
      simp only [Int.sub_zero]
      rfl

/-- C10 witness: the scheme equations and the zero-row rendering
instantiated at concrete inputs. -/
theorem C10_zero_renders_empty_witness :
    ((-3 : Int) < 1 ∧
      (alphabetize false (-3) "" = "" ∧ alphabetize true (-3) "" = "")) ∧
    (counter_pad ⟨0, "«", "» ", 3, " ", "*", .roman, false⟩ true 0 =
      "«" ++ String.mk (pad_start [] 3 "*".data) ++ "» ") :=
  ⟨⟨by decide, C10_zero_renders_empty.1 (-3) (by decide)⟩,
   C10_zero_renders_empty.2.2.2 ⟨0, "«", "» ", 3, " ", "*", .roman, false⟩ true
     (Or.inr (Or.inr (Or.inl rfl))) rfl⟩

/-- C1: for every chainable transform `outer` and every transform `inner`
(chainable or plain), `outer(inner)` is the `composite` closure whose
display name is `outerName(innerName)` and which, invoked on a literal
template, first computes `inner`'s result on that template, wraps that
string as the single interpolated content of a template, and applies
`outer`'s underlying tag to it; instantiated on the spec's scenario,
bracketing composed with uppercasing applied to `"hi"` yields `"[HI]"`. -/
theorem C1_composite_inner_then_outer :
    (∀ (tag : Template → String) (name : String) (inner : Fn), name ≠ "" →
        call (make_chainable tag name) (.fn inner) =
          some (.fn (.composite tag inner (name ++ "(" ++ inner.fname ++ ")"))))
    ∧ (∀ (tag inner_tag : Template → String) (nm iname : String) (t : Template),
        call (.composite tag (.chainable inner_tag iname) nm) (.tmpl t) =
          some (.str (tag (template_of_string (inner_tag t)))) ∧
        call (.composite tag (.plain inner_tag iname) nm) (.tmpl t) =
          some (.str (tag (template_of_string (inner_tag t)))))
    ∧ (call (make_chainable bracket_tag "bracket")
          (.fn (make_chainable upper_tag "upper")) =
        some (.fn (.composite bracket_tag
          (.chainable upper_tag "upper") "bracket(upper)")) ∧
      call (.composite bracket_tag (.chainable upper_tag "upper") "bracket(upper)")
          (.str "hi") = some (.str "[HI]")) := by
  refine ⟨fun tag name inner h => ?_, fun tag inner_tag nm iname t => ⟨rfl, rfl⟩,
    rfl, rfl⟩
  simp only [make_chainable, if_neg h, call]

/-- C1 witness: the general composite equation instantiated on concrete
transforms. -/
theorem C1_composite_witness :
    ("bracket" : String) ≠ "" ∧
      call (make_chainable bracket_tag "bracket") (.fn (.plain flush_tag "flush")) =
        some (.fn (.composite bracket_tag (.plain flush_tag "flush")
          ("bracket" ++ "(" ++ Fn.fname (.plain flush_tag "flush") ++ ")"))) :=
  ⟨by decide, C1_composite_inner_then_outer.1 bracket_tag "bracket"
    (.plain flush_tag "flush") (by decide)⟩

/-- C4 (code bug): the dispatcher's function case returns the bare
`composite` closure without passing it through `makeｰchainable`, so the
value returned by `c(inner)` does not support the chainable call shapes:
applying `identity(fold)` to the further transform `flush` yields a
string (the outer tag applied to the stringified source text of the inner
composite) instead of a further composed chainable transform. -/
theorem C4_composite_not_chainable :
    call (make_chainable identity_tag "identity")
        (.fn (make_chainable fold_tag "fold")) =
      some (.fn (.composite identity_tag (.chainable fold_tag "fold")
        "identity(fold)"))
    ∧ call (.composite identity_tag (.chainable fold_tag "fold") "identity(fold)")
        (.fn (make_chainable flush_tag "flush")) =
      some (.str "function fold(flush)() { [source code] }") :=
  ⟨rfl, rfl⟩

end Tags
